import Mathlib

/-!
Shallow embedding of the `ma-todolist-ia` client state logic.

The embedded source lives in `src/App.tsx` (the `App` component state and its
handlers), `src/types.ts` (the data model), the Gemini service module (the
response schema and system instruction) and the panel components.  React
`useState` hooks of the `App` component are bundled into one `AppState`
record, and each handler becomes a pure function on it.  Ambient values that
the handlers read from the environment (`Date.now()`, `Math.random()`, the
parse outcome of the model response) are passed as explicit parameters.
-/

namespace TodoApp

/-- `Item` from `src/types.ts`: `dueDate` and `notes` are optional fields,
so a missing (`undefined`) field is `none`. -/
structure Item where
  id : String
  content : String
  completed : Bool
  dueDate : Option String := none
  notes : Option String := none
deriving DecidableEq, Repr

/-- `Category` from `src/types.ts`. -/
structure Category where
  id : String
  name : String
  icon : String
  items : List Item
deriving DecidableEq, Repr

/-- The `sender` field of `ChatMessage` (`'user' | 'ai'`). -/
inductive Sender where
  | user
  | ai
deriving DecidableEq, Repr

/-- `ChatMessage` from `src/types.ts`. -/
structure ChatMessage where
  id : String
  text : String
  sender : Sender
deriving DecidableEq, Repr

/-- `UndoAction` from `src/types.ts`, a tagged union of one reversible
mutation.  Indices recorded from JS `findIndex` are integers (they can be
`-1`). -/
inductive UndoAction where
  | itemAdd (categoryId : String) (itemId : String)
  | itemDelete (categoryId : String) (item : Item) (index : Int)
  | itemToggle (categoryId : String) (itemId : String)
  | itemNotesUpdate (categoryId : String) (itemId : String) (prevNotes : String)
  | itemDrag (categoryId : String) (oldIndex : Int) (newIndex : Int)
  | categoryAdd (categoryId : String)
  | categoryDelete (category : Category) (index : Int)
deriving DecidableEq, Repr

/-- The `App` component state hooks bundled into one record
(`src/App.tsx` lines 50-56).  `confirmAction` holds only the dialog
message: the `onConfirm` callback is a closure and is not representable;
this loses nothing because no code path in the repository ever stores a
non-null value in `confirmAction` (only the dialog cancel button clears
it).  `selectedItemId` and the transient `isLoadingAI` flag are omitted:
no claim mentions them and they never feed back into the collections.
Holding the pending undo as `Option UndoAction` is itself the source
representation: the `undoAction` hook stores `UndoAction | null`, so at
most one undo record ever exists. -/
structure AppState where
  categories : List Category
  activeCategoryId : Option String
  messages : List ChatMessage
  undoAction : Option UndoAction
  confirmAction : Option String := none
deriving DecidableEq, Repr

/-! ## JS array helpers

`Array.prototype.splice` clamps its start argument into the array range:
a negative start counts from the end (clamped at 0), and a start past the
end is clamped to the length. -/

/-- The index at which JS `splice(start, ...)` operates on an array of
length `len`. -/
def spliceStart (len : Nat) (start : Int) : Nat :=
  if start < 0 then len - min len start.natAbs else min start.toNat len

/-- JS `Array.prototype.findIndex`: the index of the first element
satisfying `p`, and `-1` when there is none. -/
def findIndex (p : α → Bool) (l : List α) : Int :=
  match l.findIdx? p with
  | some i => (i : Int)
  | none => -1

/-- JS `newItems.splice(index, 0, item)`: insert `item` at the clamped
position `index`. -/
def spliceInsert (l : List α) (index : Int) (x : α) : List α :=
  l.insertIdx (spliceStart l.length index) x

/-- `arrayMove` from `@dnd-kit/sortable`:

`newArray.splice(to < 0 ? newArray.length + to : to, 0, newArray.splice(from, 1)[0])`

The arguments of the outer `splice` are evaluated left to right, so the
insertion index is computed from the length before the removal.  When the
inner `splice(from, 1)` removes nothing (an empty array, or `from` clamped
to the length), JS would insert the `undefined` value, which `List α`
cannot represent; that branch returns the list unchanged, and every
theorem below stays inside the representable branch (indices produced by
a successful `findIndex`). -/
def arrayMove (l : List α) (fromIdx toIdx : Int) : List α :=
  let insPos : Int := if toIdx < 0 then (l.length : Int) + toIdx else toIdx
  let s := spliceStart l.length fromIdx
  match l[s]? with
  | some x =>
      let removed := l.eraseIdx s
      removed.insertIdx (spliceStart removed.length insPos) x
  | none => l

/-- Update the first element satisfying `p` (the JS code obtains that
element by `Array.prototype.find` and mutates it in place, which rewrites
exactly the first match inside the array). -/
def updateFirst (p : α → Bool) (f : α → α) : List α → List α
  | [] => []
  | a :: t => if p a then f a :: t else a :: updateFirst p f t

/-! ## Direct UI handlers (`src/App.tsx`)

`Date.now()` is ambient; each handler that generates an identifier from it
takes the clock reading `now` as a parameter. -/

/-- `handleAddCategory` (`src/App.tsx` lines 85-90). -/
def handleAddCategory (now : Nat) (name icon : String) (s : AppState) : AppState :=
  let newCategory : Category := ⟨"cat-" ++ toString now, name, icon, []⟩
  { s with
    categories := s.categories ++ [newCategory]
    activeCategoryId := some newCategory.id
    undoAction := some (.categoryAdd newCategory.id) }

/-- `handleDeleteCategory` (`src/App.tsx` lines 92-103). -/
def handleDeleteCategory (categoryId : String) (s : AppState) : AppState :=
  match s.categories.find? (fun c => c.id == categoryId) with
  | none => s
  | some categoryToDelete =>
    let categoryIndex := findIndex (fun c => c.id == categoryId) s.categories
    let remainingCategories := s.categories.filter (fun c => c.id != categoryId)
    { s with
      categories := remainingCategories
      activeCategoryId :=
        if s.activeCategoryId == some categoryId then
          remainingCategories.head?.map (fun c => c.id)
        else s.activeCategoryId
      undoAction := some (.categoryDelete categoryToDelete categoryIndex) }

/-- `handleAddItem` (`src/App.tsx` lines 105-111). -/
def handleAddItem (now : Nat) (categoryId content : String) (dueDate : Option String)
    (s : AppState) : AppState :=
  let newItem : Item := ⟨"item-" ++ toString now, content, false, dueDate, none⟩
  { s with
    categories := s.categories.map fun c =>
      if c.id == categoryId then { c with items := c.items ++ [newItem] } else c
    undoAction := some (.itemAdd categoryId newItem.id) }

/-- `handleToggleItem` (`src/App.tsx` lines 113-120). -/
def handleToggleItem (categoryId itemId : String) (s : AppState) : AppState :=
  { s with
    categories := s.categories.map fun c =>
      if c.id == categoryId then
        { c with items := c.items.map fun i =>
            if i.id == itemId then { i with completed := !i.completed } else i }
      else c
    undoAction := some (.itemToggle categoryId itemId) }

/-- `handleDeleteItem` (`src/App.tsx` lines 122-139): the deleted item and
its index are captured before the filter; when the category or the item is
missing nothing happens and no undo record is written. -/
def handleDeleteItem (categoryId itemId : String) (s : AppState) : AppState :=
  let deleted : Option (Item × Int) :=
    match s.categories.find? (fun c => c.id == categoryId) with
    | none => none
    | some category =>
      let itemIndex := findIndex (fun i => i.id == itemId) category.items
      if itemIndex == -1 then none
      else match category.items[itemIndex.toNat]? with
        | none => none
        | some deletedItem => some (deletedItem, itemIndex)
  match deleted with
  | none => s
  | some (deletedItem, itemIndex) =>
    { s with
      categories := s.categories.map fun c =>
        if c.id == categoryId then
          { c with items := c.items.filter (fun i => i.id != itemId) }
        else c
      undoAction := some (.itemDelete categoryId deletedItem itemIndex) }

/-- `handleUpdateItemNotes` (`src/App.tsx` lines 145-159): the previous
notes are read back through `item.notes || ''`, so absent notes are
recorded as the empty string. -/
def handleUpdateItemNotes (categoryId itemId notes : String) (s : AppState) : AppState :=
  let prevNotes :=
    match s.categories.find? (fun c => c.id == categoryId) with
    | none => ""
    | some category =>
      match category.items.find? (fun i => i.id == itemId) with
      | none => ""
      | some item => item.notes.getD ""
  { s with
    categories := s.categories.map fun c =>
      if c.id == categoryId then
        { c with items := c.items.map fun i =>
            if i.id == itemId then { i with notes := some notes } else i }
      else c
    undoAction := some (.itemNotesUpdate categoryId itemId prevNotes) }

/-- `handleDragEnd` (`src/App.tsx` lines 161-178).  The drag event supplies
`active.id` and `over.id`; a drop with no `over` target returns before any
state change, so the embedding takes both ids as given. -/
def handleDragEnd (activeId overId : String) (s : AppState) : AppState :=
  if activeId == overId then s
  else
    match s.activeCategoryId with
    | none => s
    | some acid =>
      match s.categories.find? (fun c => c.id == acid) with
      | none => s
      | some activeCategory =>
        let oldIndex := findIndex (fun item => item.id == activeId) activeCategory.items
        let newIndex := findIndex (fun item => item.id == overId) activeCategory.items
        { s with
          categories := s.categories.map fun c =>
            if c.id == acid then { c with items := arrayMove c.items oldIndex newIndex }
            else c
          undoAction := some (.itemDrag acid oldIndex newIndex) }

/-- `handleUndo` (`src/App.tsx` lines 180-236). -/
def handleUndo (s : AppState) : AppState :=
  match s.undoAction with
  | none => s
  | some ua =>
    let categories :=
      match ua with
      | .itemAdd categoryId itemId =>
          s.categories.map fun c =>
            if c.id == categoryId then
              { c with items := c.items.filter (fun i => i.id != itemId) }
            else c
      | .itemDelete categoryId item index =>
          s.categories.map fun c =>
            if c.id == categoryId then { c with items := spliceInsert c.items index item }
            else c
      | .itemToggle categoryId itemId =>
          s.categories.map fun c =>
            if c.id == categoryId then
              { c with items := c.items.map fun i =>
                  if i.id == itemId then { i with completed := !i.completed } else i }
            else c
      | .itemNotesUpdate categoryId itemId prevNotes =>
          s.categories.map fun c =>
            if c.id == categoryId then
              { c with items := c.items.map fun i =>
                  if i.id == itemId then { i with notes := some prevNotes } else i }
            else c
      | .itemDrag categoryId oldIndex newIndex =>
          s.categories.map fun c =>
            if c.id == categoryId then
              { c with items := arrayMove c.items newIndex oldIndex }
            else c
      | .categoryAdd categoryId =>
          s.categories.filter (fun c => c.id != categoryId)
      | .categoryDelete category index =>
          spliceInsert s.categories index category
    { s with categories := categories, undoAction := none }

/-- The reselection effect (`src/App.tsx` lines 71-75): when the active
category id is null, empty (JS falsy) or resolves to no category, select
the first category, or null when none remain. -/
def reselectActiveCategory (s : AppState) : AppState :=
  let bad :=
    match s.activeCategoryId with
    | none => true
    | some a => a == "" || !(s.categories.any (fun c => c.id == a))
  if bad then
    { s with activeCategoryId := s.categories.head?.map (fun c => c.id) }
  else s

/-- The delay, in milliseconds, of the timer that the undo expiry effect
(`src/App.tsx` lines 77-82) arms whenever an undo record is set. -/
def undoClearDelayMs : Nat := 5100

/-- The undo expiry timer callback (`src/App.tsx` line 79):
`setUndoAction(null)`, unconditionally. -/
def undoExpire (s : AppState) : AppState :=
  { s with undoAction := none }

/-! ## The AI command interpreter (`handleSendMessage` and `responseSchema`)

The Gemini service declares `responseSchema`; the parsed response is
embedded with the schema-required fields (`action`, `response`, and
`content`/`categoryName` inside each `items` entry) as plain values and
every other field optional.  JS dereferences of a possibly-`undefined`
string (`x.toLowerCase()`) become reads in `Except Unit`, whose `error`
is the TypeError that the `catch` block of `handleSendMessage` absorbs.
One knowing inaccuracy, confined to corners no theorem visits: when the
category list is empty the JS name-matching callbacks never run, so a
missing name would not be dereferenced there; the model raises regardless.
-/

/-- One entry of `result.items` (schema: `content` and `categoryName`
required, the rest optional). -/
structure AIItemPayload where
  content : String
  categoryName : String
  completed : Option Bool := none
  dueDate : Option String := none
  newContent : Option String := none
  notes : Option String := none
deriving DecidableEq, Repr

/-- `result.category_details` (no required fields in the schema). -/
structure AICategoryDetails where
  name : Option String := none
  newName : Option String := none
  icon : Option String := none
  sourceName : Option String := none
  destinationName : Option String := none
deriving DecidableEq, Repr

/-- `result.filter` (no required fields in the schema). -/
structure AIFilter where
  categoryName : Option String := none
  completed : Option Bool := none
deriving DecidableEq, Repr

/-- A parsed model response (`responseSchema`: `action` and `response`
required). -/
structure AIResult where
  action : String
  response : String
  items : Option (List AIItemPayload) := none
  category_details : Option AICategoryDetails := none
  filter : Option AIFilter := none
deriving DecidableEq, Repr

/-- An executable lowercase mapping on characters, agreeing with the
Unicode simple lowercase mapping (hence with the JS engine) on the Basic
Latin and Latin-1 repertoire plus `Œ` and `Ÿ` — enough for French names
such as `À Faire`.  The engine function it stands in for,
`String.prototype.toLowerCase`, performs full Unicode case conversion;
reproducing that table is not reasonable here, so the action switch below
is parametric in the lowering (`applyAIResultWith`), the matching claims
quantify over it, and this function only instantiates it for executable
witnesses (whose data stays inside the repertoire above) and for the
claims whose truth does not depend on the lowering at all. -/
def charToLowerCase (c : Char) : Char :=
  if 0x41 ≤ c.toNat && c.toNat ≤ 0x5A then Char.ofNat (c.toNat + 32)
  else if (0xC0 ≤ c.toNat && c.toNat ≤ 0xD6) || (0xD8 ≤ c.toNat && c.toNat ≤ 0xDE) then
    Char.ofNat (c.toNat + 32)
  else if c.toNat = 0x152 then Char.ofNat 0x153
  else if c.toNat = 0x178 then Char.ofNat 0xFF
  else c

/-- The executable instantiation of the engine lowering (see
`charToLowerCase`). -/
def toLowerCase (s : String) : String :=
  String.mk (s.data.map charToLowerCase)

/-- Dereference a field the JS code uses without checking: `none` is the
TypeError that escapes to the `catch` block. -/
def require : Option σ → Except Unit σ
  | some x => .ok x
  | none => .error ()

/-- The `add` case (lines 271-278): each payload entry pushes one item
onto the first category whose name matches case-insensitively.  The pushed
item is `{ id: ..., ...itemToAdd, completed: false }`: the id is
`item-Date.now()-Math.random()`, modelled as `gen idx` for the payload at
position `idx`; the spread copies `content`, `dueDate` and `notes` (the
stray `categoryName`/`newContent` properties it also copies have no
counterpart in `Item`), and `completed: false` overrides any payload
value. -/
def aiAddItems (low : String → String) (gen : Nat → String) :
    Nat → List AIItemPayload → List Category → List Category
  | _, [], cats => cats
  | idx, p :: rest, cats =>
    aiAddItems low gen (idx + 1) rest
      (updateFirst (fun c : Category => low c.name == low p.categoryName)
        (fun c => { c with items :=
          c.items ++ [⟨gen idx, p.content, false, p.dueDate, p.notes⟩] }) cats)

/-- The `update` case (lines 280-297): locate the item by case-insensitive
content inside the first name-matching category and overwrite the fields
the payload defines. -/
def aiUpdateItems (low : String → String) :
    List AIItemPayload → List Category → List Category
  | [], cats => cats
  | p :: rest, cats =>
    aiUpdateItems low rest
      (updateFirst (fun c : Category => low c.name == low p.categoryName)
        (fun c =>
          match c.items.findIdx? (fun i => low i.content == low p.content) with
          | none => c
          | some itemIndex =>
            match c.items[itemIndex]? with
            | none => c
            | some originalItem =>
              let newDueDate := match p.dueDate with
                | some d => some d
                | none => originalItem.dueDate
              let newNotes := match p.notes with
                | some n => some n
                | none => originalItem.notes
              let updatedItem : Item :=
                { originalItem with
                  content := p.newContent.getD originalItem.content
                  completed := p.completed.getD originalItem.completed
                  dueDate := newDueDate
                  notes := newNotes }
              { c with items := c.items.set itemIndex updatedItem }) cats)

/-- The targeted `delete` case (lines 357-362): drop, from the first
name-matching category, every item whose content matches
case-insensitively. -/
def aiDeleteByContent (low : String → String) :
    List AIItemPayload → List Category → List Category
  | [], cats => cats
  | p :: rest, cats =>
    aiDeleteByContent low rest
      (updateFirst (fun c : Category => low c.name == low p.categoryName)
        (fun c =>
          let newItems := c.items.filter (fun i => low i.content != low p.content)
          { c with items := newItems }) cats)

/-- The `switch (result.action)` block of `handleSendMessage`,
parametric in the engine lowering `low`, which stands for the
`String.prototype.toLowerCase` calls of the source (full Unicode case
conversion supplied by the JS runtime; see `charToLowerCase`).
(`src/App.tsx` lines 267-366), acting on the shallow-copied category list
and the active category id.  `activeCategory` is the memoised lookup of
line 61 on the pre-call state.  `now` models the `Date.now()` reading that
builds a created category id.  In the `create_category` case the stored
icon is the raw payload icon (the `getIcon(icon) ? icon : 'Default'`
guard never takes its else branch, because `getIcon` always returns a
component); a created category with no payload icon would store the
`undefined` value, which `icon : String` cannot hold, so that corner
stores `"Default"`.  In the `rename_category` case a missing `newName`
would be written, as the `undefined` value, into the matched category
names, poisoning them for every later name dereference; `name : String`
cannot hold it, so the model raises at the rename itself. -/
def applyAIResultWith (low : String → String) (gen : Nat → String) (now : Nat)
    (r : AIResult) (cats : List Category) (activeId : Option String) :
    Except Unit (List Category × Option String) :=
  let activeCategory :=
    match activeId with
    | none => none
    | some a => cats.find? (fun c : Category => c.id == a)
  if r.action == "add" then
    .ok ((match r.items with
          | none => cats
          | some ps => aiAddItems low gen 0 ps cats), activeId)
  else if r.action == "update" then
    .ok ((match r.items with
          | none => cats
          | some ps => aiUpdateItems low ps cats), activeId)
  else if r.action == "create_category" then
    match r.category_details with
    | none => .ok (cats, activeId)
    | some d =>
      match d.name with
      | none => .ok (cats, activeId)
      | some name =>
        if name != "" && !(cats.any (fun c => low c.name == low name)) then
          let newCategory : Category :=
            ⟨"cat-" ++ toString now, name, d.icon.getD "Default", []⟩
          .ok (cats ++ [newCategory], some newCategory.id)
        else .ok (cats, activeId)
  else if r.action == "rename_category" then
    match r.category_details with
    | none => .ok (cats, activeId)
    | some d => do
      let name ← require d.name
      let newName ← require d.newName
      .ok (cats.map (fun c =>
            if low c.name == low name then { c with name := newName } else c),
           activeId)
  else if r.action == "delete_category" then
    match r.category_details with
    | none => .ok (cats, activeId)
    | some d => do
      let name ← require d.name
      let newCats := cats.filter (fun c => low c.name != low name)
      let newActive :=
        match activeCategory with
        | some ac =>
          if low ac.name == low name then newCats.head?.map (fun c : Category => c.id)
          else activeId
        | none => activeId
      .ok (newCats, newActive)
  else if r.action == "merge_categories" then
    match r.category_details with
    | none => .ok (cats, activeId)
    | some d => do
      let sourceName ← require d.sourceName
      let destinationName ← require d.destinationName
      match cats.find? (fun c => low c.name == low sourceName),
            cats.find? (fun c => low c.name == low destinationName) with
      | some sourceCat, some destCat =>
        let itemsToMove := sourceCat.items
        .ok ((cats.map (fun c =>
                if c.id == destCat.id then { c with items := c.items ++ itemsToMove }
                else c)).filter (fun c => c.id != sourceCat.id),
             activeId)
      | _, _ => .ok (cats, activeId)
  else if r.action == "delete" then
    match r.filter with
    | some f => do
      let categoryName ← require f.categoryName
      .ok (updateFirst (fun c : Category => low c.name == low categoryName)
            (fun c => { c with items :=
              match f.completed with
              | some b => c.items.filter (fun i => i.completed != b)
              | none => c.items }) cats,
           activeId)
    | none =>
      .ok ((match r.items with
            | none => cats
            | some ps => aiDeleteByContent low ps cats), activeId)
  else
    .ok (cats, activeId)


/-- The action switch with the lowering instantiated by the executable
`toLowerCase` — the instantiation used by `handleSendMessage` below and
by every claim whose property does not depend on the lowering. -/
def applyAIResult (gen : Nat → String) (now : Nat) (r : AIResult)
    (cats : List Category) (activeId : Option String) :
    Except Unit (List Category × Option String) :=
  applyAIResultWith toLowerCase gen now r cats activeId

/-- `handleSendMessage` (`src/App.tsx` lines 239-377).  The ambient
environment is passed in: `now` is the `Date.now()` reading for the
message ids, `gen` the generated item ids of the `add` case, `hasAI`
whether `aiRef.current` holds a client (a real API key was configured),
and `parsed` the outcome of `JSON.parse` on the trimmed response text of
the opaque network call.  The `!text.trim()` early-return only tests
whether the trimmed text is empty, which holds exactly when every
character of `text` is whitespace; the guard is embedded in that form.
The transient `isLoadingAI` re-entrancy flag is outside the modelled
state.  On a parse failure the `catch` block runs
before `setUndoAction(null)` was reached, so the pending undo record
survives; on a failure inside the action switch the undo record is
already cleared, and the categories are untouched because every raising
case raises before building any change. -/
def handleSendMessage (gen : Nat → String) (now : Nat) (text : String)
    (hasAI : Bool) (parsed : Except Unit AIResult) (s : AppState) : AppState :=
  if text.toList.all (fun ch => ch.isWhitespace) then s
  else
    let userMessage : ChatMessage := ⟨"msg-" ++ toString now, text, .user⟩
    let s1 := { s with messages := s.messages ++ [userMessage] }
    if !hasAI then
      { s1 with messages := s1.messages ++
          [⟨"msg-" ++ toString (now + 1),
            "Clé API non configurée. Ceci est une réponse factice.", .ai⟩] }
    else
      match parsed with
      | .error _ =>
        { s1 with messages := s1.messages ++
            [⟨"msg-" ++ toString (now + 1), "Désolé, une erreur est survenue.", .ai⟩] }
      | .ok result =>
        let s2 := { s1 with undoAction := none }
        match applyAIResult gen now result s2.categories s2.activeCategoryId with
        | .error _ =>
          { s2 with messages := s2.messages ++
              [⟨"msg-" ++ toString (now + 1), "Désolé, une erreur est survenue.", .ai⟩] }
        | .ok (newCategories, newActive) =>
          { s2 with
            categories := newCategories
            activeCategoryId := newActive
            messages := s2.messages ++
              [⟨"msg-" ++ toString (now + 1), result.response, .ai⟩] }

/-- Rename, in a parsed response, exactly the name fields the action
switch uses as case-insensitive match queries — and none of the fields it
stores: `categoryName` everywhere, item `content` for `update` and
`delete` (where it locates an item) but not for `add` (where it is the
stored text), `name` for `rename_category`/`delete_category` but not for
`create_category` (where it is stored), and the merge source/destination
names.  Used to state claim C8: the interpreter's behaviour is invariant
under any renaming that preserves lowercase forms. -/
def renameQueryNames (σ : String → String) (r : AIResult) : AIResult :=
  { r with
    items := r.items.map (List.map (fun p =>
      { p with
        categoryName := σ p.categoryName
        content := if r.action == "add" then p.content else σ p.content }))
    category_details := r.category_details.map (fun d =>
      if r.action == "create_category" then d
      else { d with
        name := d.name.map σ
        sourceName := d.sourceName.map σ
        destinationName := d.destinationName.map σ })
    filter := r.filter.map (fun f => { f with categoryName := f.categoryName.map σ }) }

/-! ## Concrete sample stores used by witnesses and counterexamples -/

/-- A small concrete store: two categories, the first non-empty; its
second item has no notes field.  It mirrors the shape of
`INITIAL_CATEGORIES` in `src/App.tsx`. -/
def sampleState : AppState :=
  { categories := [⟨"cat-1", "Achats", "ShoppingCart",
      [⟨"item-1", "Lait", false, none, some "bio"⟩,
       ⟨"item-2", "Pain", false, none, none⟩]⟩,
      ⟨"cat-2", "Films", "Clapperboard", []⟩]
    activeCategoryId := some "cat-1"
    messages := []
    undoAction := none }

/-- A concrete store with an accented category name, as the application
itself ships (`À Faire` in `INITIAL_CATEGORIES`), for the witnesses of
the name-matching claims. -/
def sampleCategoriesFr : List Category :=
  [⟨"cat-1", "À Faire", "ListTodo",
      [⟨"item-1", "Appeler le médecin", false, none, none⟩]⟩,
   ⟨"cat-2", "Achats", "ShoppingCart",
      [⟨"item-2", "Lait", false, none, none⟩]⟩]

/-- A parsed model response asking to delete the (non-empty) category
named `Achats`. -/
def deleteAchatsAction : AIResult :=
  { action := "delete_category"
    response := "ok"
    category_details := some { name := some "Achats" } }

/-! ## State-machine definitions for the invariant claims -/

/-- The invariant of claim C6: the active category id is null or the id of
a category present in the store. -/
abbrev ActiveOk (s : AppState) : Prop :=
  s.activeCategoryId = none ∨ ∃ c ∈ s.categories, s.activeCategoryId = some c.id

/-- One stable step of the application: an event handler (or the undo
expiry timer) runs, and then React runs the reselection effect of lines
71-75 — its dependencies `[activeCategoryId, categories]` make it run
after every commit, before the next event can be handled. -/
inductive StableStep : AppState → AppState → Prop where
  | addCategory (now : Nat) (name icon : String) (s : AppState) :
      StableStep s (reselectActiveCategory (handleAddCategory now name icon s))
  | deleteCategory (categoryId : String) (s : AppState) :
      StableStep s (reselectActiveCategory (handleDeleteCategory categoryId s))
  | addItem (now : Nat) (categoryId content : String) (dueDate : Option String)
      (s : AppState) :
      StableStep s (reselectActiveCategory (handleAddItem now categoryId content dueDate s))
  | toggleItem (categoryId itemId : String) (s : AppState) :
      StableStep s (reselectActiveCategory (handleToggleItem categoryId itemId s))
  | deleteItem (categoryId itemId : String) (s : AppState) :
      StableStep s (reselectActiveCategory (handleDeleteItem categoryId itemId s))
  | updateItemNotes (categoryId itemId notes : String) (s : AppState) :
      StableStep s (reselectActiveCategory (handleUpdateItemNotes categoryId itemId notes s))
  | dragEnd (activeId overId : String) (s : AppState) :
      StableStep s (reselectActiveCategory (handleDragEnd activeId overId s))
  | undo (s : AppState) :
      StableStep s (reselectActiveCategory (handleUndo s))
  | sendMessage (gen : Nat → String) (now : Nat) (text : String) (hasAI : Bool)
      (parsed : Except Unit AIResult) (s : AppState) :
      StableStep s (reselectActiveCategory (handleSendMessage gen now text hasAI parsed s))
  | expire (s : AppState) :
      StableStep s (reselectActiveCategory (undoExpire s))
  | reselect (s : AppState) :
      StableStep s (reselectActiveCategory s)

/-- Reachability by stable steps. -/
def Reachable : AppState → AppState → Prop :=
  Relation.ReflTransGen StableStep

/-- All item ids of a store, across every category, in order. -/
def joinItemIds (cats : List Category) : List String :=
  (cats.map (fun c => c.items.map (fun i => i.id))).flatten

/-- The invariant of claim C5: category ids pairwise distinct, and item
ids pairwise distinct across the store. -/
abbrev UniqueIds (s : AppState) : Prop :=
  (s.categories.map (fun c => c.id)).Nodup ∧ (joinItemIds s.categories).Nodup

/-- The four operations of claim C5 that create identifiers: the two UI
adders and the two creating AI actions, each carrying the ambient clock
or random readings that build the generated ids. -/
inductive GrowOp where
  | uiAddCategory (now : Nat) (name icon : String)
  | uiAddItem (now : Nat) (categoryId content : String) (dueDate : Option String)
  | aiAdd (gen : Nat → String) (resp : String) (ps : List AIItemPayload)
  | aiCreateCategory (now : Nat) (resp : String) (d : AICategoryDetails)

/-- Run one `GrowOp` through the corresponding handler (the AI ops go
through the real action switch; their `add`/`create_category` cases never
raise). -/
def applyGrowOp (op : GrowOp) (s : AppState) : AppState :=
  match op with
  | .uiAddCategory now name icon => handleAddCategory now name icon s
  | .uiAddItem now categoryId content dueDate =>
      handleAddItem now categoryId content dueDate s
  | .aiAdd gen resp ps =>
      match applyAIResult gen 0 ⟨"add", resp, some ps, none, none⟩
          s.categories s.activeCategoryId with
      | .ok (cats, a) => { s with categories := cats, activeCategoryId := a }
      | .error _ => s
  | .aiCreateCategory now resp d =>
      match applyAIResult (fun _ => "") now
          ⟨"create_category", resp, none, some d, none⟩
          s.categories s.activeCategoryId with
      | .ok (cats, a) => { s with categories := cats, activeCategoryId := a }
      | .error _ => s

/-- Run a sequence of `GrowOp`s. -/
def applyGrowOps (ops : List GrowOp) (s : AppState) : AppState :=
  match ops with
  | [] => s
  | op :: rest => applyGrowOps rest (applyGrowOp op s)

/-- The freshness provisos of the amended claim C5: every id an operation
generates is new to the store it runs on, and the ids generated inside a
single AI `add` are pairwise distinct. -/
abbrev FreshFor (op : GrowOp) (s : AppState) : Prop :=
  match op with
  | .uiAddCategory now _ _ => ∀ c ∈ s.categories, c.id ≠ "cat-" ++ toString now
  | .uiAddItem now _ _ _ => ("item-" ++ toString now) ∉ joinItemIds s.categories
  | .aiAdd gen _ ps =>
      (∀ k < ps.length, gen k ∉ joinItemIds s.categories) ∧
      (∀ k1 < ps.length, ∀ k2 < ps.length, k1 ≠ k2 → gen k1 ≠ gen k2)
  | .aiCreateCategory now _ _ => ∀ c ∈ s.categories, c.id ≠ "cat-" ++ toString now

/-- Freshness along a whole sequence. -/
abbrev FreshAlong (ops : List GrowOp) (s : AppState) : Prop :=
  match ops with
  | [] => True
  | op :: rest => FreshFor op s ∧ FreshAlong rest (applyGrowOp op s)

/-! ## List lemmas about the JS helpers -/

/-- Reinserting the removed element at its index restores the list. -/
theorem insertIdx_eraseIdx_self :
    ∀ (l : List α) (i : Nat) (h : i < l.length),
      List.insertIdx i (l.get ⟨i, h⟩) (l.eraseIdx i) = l
  | _ :: _, 0, _ => rfl
  | a :: t, i + 1, h => by
    have ih := insertIdx_eraseIdx_self t i (by simpa using h)
    simpa [List.eraseIdx_cons_succ, List.insertIdx_succ_cons] using ih

/-- A list is a permutation of its `i`-th element consed onto the list
with that element removed. -/
theorem perm_get_cons_eraseIdx (l : List α) (i : Nat) (h : i < l.length) :
    l.Perm (l.get ⟨i, h⟩ :: l.eraseIdx i) := by
  conv_lhs => rw [← insertIdx_eraseIdx_self l i h]
  refine List.perm_insertIdx _ _ ?_
  rw [List.length_eraseIdx, if_pos h]
  omega

/-- When the keys `f` are pairwise distinct, filtering out the key of the
`i`-th element removes exactly that element. -/
theorem filter_bne_eq_eraseIdx (f : α → String) (k : String) :
    ∀ (l : List α) (i : Nat) (h : i < l.length),
      (l.map f).Nodup → f (l.get ⟨i, h⟩) = k →
      l.filter (fun x => f x != k) = l.eraseIdx i
  | a :: t, 0, _, hnd, hk => by
    simp only [List.map_cons, List.nodup_cons] at hnd
    replace hk : f a = k := hk
    have hka : (f a != k) = false := by simp [← hk]
    have ht : ∀ x ∈ t, (f x != k) = true := by
      intro x hx
      have hne : f x ≠ k := by
        intro he
        exact hnd.1 (by rw [hk, ← he]; exact List.mem_map_of_mem f hx)
      simpa using hne
    simp only [List.filter_cons, hka, List.eraseIdx_cons_zero]
    exact List.filter_eq_self.mpr ht
  | a :: t, i + 1, h, hnd, hk => by
    have h' : i < t.length := by simpa using h
    simp only [List.map_cons, List.nodup_cons] at hnd
    have hk' : f (t.get ⟨i, h'⟩) = k := by simpa using hk
    have hfa : f a ≠ k := by
      intro he
      exact hnd.1 (by rw [he, ← hk']; exact List.mem_map_of_mem f (t.get_mem _ _))
    have hka : (f a != k) = true := by simpa using hfa
    simp only [List.filter_cons, hka, List.eraseIdx_cons_succ, if_pos]
    exact congrArg (a :: ·) (filter_bne_eq_eraseIdx f k t i h' hnd.2 hk')

/-- The element at a successful `findIdx` satisfies the predicate. -/
theorem findIdx_get_eq (p : α → Bool) :
    ∀ (l : List α) (i : Nat) (hlt : i < l.length), List.findIdx p l = i →
      p (l.get ⟨i, hlt⟩) = true
  | a :: t, 0, _, heq => by
    by_cases hpa : p a
    · simpa using hpa
    · exfalso
      have : List.findIdx p (a :: t) = List.findIdx p t + 1 := by
        simp [List.findIdx_cons, hpa]
      omega
  | a :: t, i + 1, hlt, heq => by
    by_cases hpa : p a
    · exfalso
      have : List.findIdx p (a :: t) = 0 := by simp [List.findIdx_cons, hpa]
      omega
    · have hfi : List.findIdx p t = i := by
        have : List.findIdx p (a :: t) = List.findIdx p t + 1 := by
          simp [List.findIdx_cons, hpa]
        omega
      have := findIdx_get_eq p t i (by simpa using hlt) hfi
      simpa using this

/-- `find?` returns the element at the first matching index. -/
theorem find?_eq_some_get_of_findIdx_eq (p : α → Bool) :
    ∀ (l : List α) (i : Nat) (hlt : i < l.length), List.findIdx p l = i →
      l.find? p = some (l.get ⟨i, hlt⟩)
  | a :: t, 0, _, heq => by
    by_cases hpa : p a
    · simp [List.find?_cons, hpa]
    · exfalso
      have : List.findIdx p (a :: t) = List.findIdx p t + 1 := by
        simp [List.findIdx_cons, hpa]
      omega
  | a :: t, i + 1, hlt, heq => by
    by_cases hpa : p a
    · exfalso
      have : List.findIdx p (a :: t) = 0 := by simp [List.findIdx_cons, hpa]
      omega
    · have hfi : List.findIdx p t = i := by
        have : List.findIdx p (a :: t) = List.findIdx p t + 1 := by
          simp [List.findIdx_cons, hpa]
        omega
      have := find?_eq_some_get_of_findIdx_eq p t i (by simpa using hlt) hfi
      simp [List.find?_cons, hpa, this]

/-- With pairwise-distinct keys, any member sharing the key of a
`find?`-result is that result. -/
theorem eq_find?_of_key (f : α → String) (k : String) {l : List α} {c : α}
    (hnd : (l.map f).Nodup) (hfind : l.find? (fun x => f x == k) = some c)
    {x : α} (hx : x ∈ l) (hfx : f x = k) : x = c := by
  have hc : c ∈ l := List.mem_of_find?_eq_some hfind
  have hfc : f c = k := by
    have := List.find?_some hfind
    simpa [beq_iff_eq] using this
  exact List.inj_on_of_nodup_map hnd hx hc (by rw [hfx, hfc])

/-- `arrayMove` at in-range non-negative indices is remove-then-insert. -/
theorem arrayMove_of_lt (l : List α) (i j : Nat) (hi : i < l.length) (hj : j < l.length) :
    arrayMove l (i : Int) (j : Int) = List.insertIdx j (l.get ⟨i, hi⟩) (l.eraseIdx i) := by
  unfold arrayMove spliceStart
  have h1 : ¬((i : Int) < 0) := by omega
  have h2 : ¬((j : Int) < 0) := by omega
  have h5 : min ((i : Int)).toNat l.length = i := by
    simp [Int.toNat_natCast]
    omega
  simp only [if_neg h1, if_neg h2, h5]
  have hget : l[i]? = some (l.get ⟨i, hi⟩) := by
    simp [List.getElem?_eq_getElem hi]
  rw [hget]
  have hlen : (l.eraseIdx i).length = l.length - 1 := by
    rw [List.length_eraseIdx, if_pos hi]
  have h6 : min ((j : Int)).toNat (l.eraseIdx i).length = j := by
    simp [Int.toNat_natCast, hlen]
    omega
  rw [h6]

/-- Moving back from `j` to `i` undoes moving from `i` to `j`. -/
theorem arrayMove_roundtrip (l : List α) (i j : Nat) (hi : i < l.length) (hj : j < l.length) :
    arrayMove (arrayMove l (i : Int) (j : Int)) (j : Int) (i : Int) = l := by
  rw [arrayMove_of_lt l i j hi hj]
  have hlen1 : (l.eraseIdx i).length = l.length - 1 := by
    rw [List.length_eraseIdx, if_pos hi]
  have hj1 : j ≤ (l.eraseIdx i).length := by omega
  have hm : (List.insertIdx j (l.get ⟨i, hi⟩) (l.eraseIdx i)).length = l.length := by
    rw [List.length_insertIdx _ _ hj1]
    omega
  rw [arrayMove_of_lt _ j i (by omega) (by omega)]
  have hx : (List.insertIdx j (l.get ⟨i, hi⟩) (l.eraseIdx i)).get ⟨j, by omega⟩ =
      l.get ⟨i, hi⟩ := by
    have := List.getElem_insertIdx_self (l.eraseIdx i) (l.get ⟨i, hi⟩) j hj1
    simpa using this
  rw [hx, List.eraseIdx_insertIdx]
  exact insertIdx_eraseIdx_self l i hi

/-- An in-range `arrayMove` permutes the list. -/
theorem arrayMove_perm (l : List α) (i j : Nat) (hi : i < l.length) (hj : j < l.length) :
    (arrayMove l (i : Int) (j : Int)).Perm l := by
  rw [arrayMove_of_lt l i j hi hj]
  have hj1 : j ≤ (l.eraseIdx i).length := by
    rw [List.length_eraseIdx, if_pos hi]
    omega
  exact (List.perm_insertIdx _ _ hj1).trans (perm_get_cons_eraseIdx l i hi).symm

/-- Mapping twice with pointwise-inverse functions is the identity. -/
theorem map_map_id_of (f g : α → α) :
    ∀ (l : List α), (∀ c ∈ l, g (f c) = c) → (l.map f).map g = l
  | [], _ => rfl
  | a :: t, h => by
    have ht := map_map_id_of f g t (fun c hc => h c (List.mem_cons_of_mem a hc))
    simp only [List.map_cons, ht, List.cons.injEq, and_true]
    exact h a (List.mem_cons_self a t)

/-! ## Undo round-trip lemmas, one per mutating operation (claim C1) -/

/-- Undoing a category add removes exactly the added category, provided
the generated id is fresh. -/
theorem undo_handleAddCategory (now : Nat) (name icon : String) (s : AppState)
    (hfresh : ∀ c ∈ s.categories, c.id ≠ "cat-" ++ toString now) :
    (handleUndo (handleAddCategory now name icon s)).categories = s.categories ∧
    (handleUndo (handleAddCategory now name icon s)).undoAction = none := by
  refine ⟨?_, by simp [handleAddCategory, handleUndo]⟩
  simp only [handleAddCategory, handleUndo, List.filter_append]
  have h1 : s.categories.filter (fun c => c.id != ("cat-" ++ toString now)) = s.categories :=
    List.filter_eq_self.mpr (fun c hc => by simpa using hfresh c hc)
  simp [h1]

/-- Undoing an item add removes exactly the added item from every category
carrying the target id, provided the generated id is fresh there. -/
theorem undo_handleAddItem (now : Nat) (categoryId content : String)
    (dueDate : Option String) (s : AppState)
    (hfresh : ∀ c ∈ s.categories, c.id = categoryId →
      ∀ i ∈ c.items, i.id ≠ "item-" ++ toString now) :
    (handleUndo (handleAddItem now categoryId content dueDate s)).categories = s.categories ∧
    (handleUndo (handleAddItem now categoryId content dueDate s)).undoAction = none := by
  refine ⟨?_, by simp [handleAddItem, handleUndo]⟩
  simp only [handleAddItem, handleUndo]
  refine map_map_id_of _ _ _ (fun c hc => ?_)
  by_cases hcid : c.id == categoryId
  · simp only [hcid, if_true, if_pos]
    have hcid' : c.id = categoryId := by simpa using hcid
    have h1 : c.items.filter (fun i => i.id != ("item-" ++ toString now)) = c.items :=
      List.filter_eq_self.mpr (fun i hi => by simpa using hfresh c hc hcid' i hi)
    simp [List.filter_append, h1]
  · simp [hcid]

/-- Undoing a toggle flips `completed` back on every targeted item. -/
theorem undo_handleToggleItem (categoryId itemId : String) (s : AppState) :
    (handleUndo (handleToggleItem categoryId itemId s)).categories = s.categories ∧
    (handleUndo (handleToggleItem categoryId itemId s)).undoAction = none := by
  refine ⟨?_, by simp [handleToggleItem, handleUndo]⟩
  simp only [handleToggleItem, handleUndo]
  refine map_map_id_of _ _ _ (fun c _ => ?_)
  by_cases hcid : c.id == categoryId
  · simp only [hcid, if_true, if_pos]
    refine congrArg (fun l => { c with items := l }) ?_
    refine map_map_id_of _ _ _ (fun i _ => ?_)
    by_cases hiid : i.id == itemId
    · simp [hiid]
    · simp [hiid]
  · simp [hcid]

/-- `findIndex` on a successful `findIdx?`. -/
theorem findIndex_eq_of_findIdx? (p : α → Bool) (l : List α) (i : Nat)
    (h : l.findIdx? p = some i) : findIndex p l = (i : Int) := by
  simp [findIndex, h]

/-- Undoing a notes update restores the previous notes, provided ids are
unique and the targeted item had its notes defined (an absent notes field
is read back as `''` and cannot be restored, see the counterexample). -/
theorem undo_handleUpdateItemNotes (categoryId itemId notes : String) (s : AppState)
    (hndc : (s.categories.map (fun c => c.id)).Nodup)
    (hcat : ∀ c ∈ s.categories, c.id = categoryId →
      (c.items.map (fun i => i.id)).Nodup ∧
      ∀ i ∈ c.items, i.id = itemId → i.notes.isSome) :
    (handleUndo (handleUpdateItemNotes categoryId itemId notes s)).categories =
      s.categories ∧
    (handleUndo (handleUpdateItemNotes categoryId itemId notes s)).undoAction = none := by
  refine ⟨?_, by simp [handleUpdateItemNotes, handleUndo]⟩
  simp only [handleUpdateItemNotes, handleUndo]
  refine map_map_id_of _ _ _ (fun c hc => ?_)
  by_cases hcid : c.id == categoryId
  · have hcid' : c.id = categoryId := by simpa using hcid
    have hfound : s.categories.find? (fun x => x.id == categoryId) ≠ none := by
      intro hnone
      exact (List.find?_eq_none.mp hnone c hc) (by simpa using hcid')
    obtain ⟨c0, hc0⟩ : ∃ c0, s.categories.find? (fun x => x.id == categoryId) = some c0 :=
      Option.ne_none_iff_exists'.mp hfound
    have hcc0 : c = c0 := eq_find?_of_key (fun x => x.id) categoryId hndc hc0 hc hcid'
    simp only [hcid, if_true, if_pos, hc0]
    refine congrArg (fun l => { c with items := l }) ?_
    refine map_map_id_of _ _ _ (fun i hi => ?_)
    by_cases hiid : i.id == itemId
    · have hiid' : i.id = itemId := by simpa using hiid
      have hnd_items := (hcat c hc hcid').1
      have hisome := (hcat c hc hcid').2 i hi hiid'
      have hifound : c.items.find? (fun x => x.id == itemId) ≠ none := by
        intro hnone
        exact (List.find?_eq_none.mp hnone i hi) (by simpa using hiid')
      obtain ⟨i0, hi0⟩ : ∃ i0, c.items.find? (fun x => x.id == itemId) = some i0 :=
        Option.ne_none_iff_exists'.mp hifound
      have hii0 : i = i0 := eq_find?_of_key (fun x => x.id) itemId hnd_items hi0 hi hiid'
      obtain ⟨v, hv⟩ := Option.isSome_iff_exists.mp hisome
      subst hcc0
      subst hii0
      simp only [hc0, hi0, hiid, if_true, if_pos]
      rw [hv]
      simp only [Option.getD_some]
      rw [← hv]
    · simp [hiid]
  · simp [hcid]

/-- Undoing a drag moves the item back, provided the event ids resolve and
category ids are unique. -/
theorem undo_handleDragEnd (activeId overId acid : String) (cat : Category)
    (i j : Nat) (s : AppState)
    (hndc : (s.categories.map (fun c => c.id)).Nodup)
    (hacid : s.activeCategoryId = some acid)
    (hfind : s.categories.find? (fun c => c.id == acid) = some cat)
    (hne : activeId ≠ overId)
    (hi : cat.items.findIdx? (fun it => it.id == activeId) = some i)
    (hj : cat.items.findIdx? (fun it => it.id == overId) = some j) :
    (handleUndo (handleDragEnd activeId overId s)).categories = s.categories ∧
    (handleUndo (handleDragEnd activeId overId s)).undoAction = none := by
  have hbeq : (activeId == overId) = false := by simpa using hne
  have hi' : i < cat.items.length :=
    (List.findIdx?_eq_some_iff_findIdx_eq.mp hi).1
  have hj' : j < cat.items.length :=
    (List.findIdx?_eq_some_iff_findIdx_eq.mp hj).1
  constructor
  · simp only [handleDragEnd, hbeq, Bool.false_eq_true, if_false, hacid, hfind,
      findIndex_eq_of_findIdx? _ _ _ hi, findIndex_eq_of_findIdx? _ _ _ hj,
      handleUndo]
    refine map_map_id_of _ _ _ (fun c hc => ?_)
    by_cases hcid : c.id == acid
    · have hcid' : c.id = acid := by simpa using hcid
      have hceq : c = cat := eq_find?_of_key (fun x => x.id) acid hndc hfind hc hcid'
      subst hceq
      simp only [hcid, if_true, if_pos]
      refine congrArg (fun l => { c with items := l }) ?_
      exact arrayMove_roundtrip c.items i j hi' hj'
    · simp [hcid]
  · simp [handleDragEnd, hbeq, hacid, hfind, handleUndo]

/-- Undoing an item delete reinserts the deleted item at its index,
provided ids are unique and the target is found. -/
theorem undo_handleDeleteItem (categoryId itemId : String) (cat : Category)
    (idx : Nat) (s : AppState)
    (hndc : (s.categories.map (fun c => c.id)).Nodup)
    (hfindc : s.categories.find? (fun c => c.id == categoryId) = some cat)
    (hnd_items : (cat.items.map (fun i => i.id)).Nodup)
    (hidx : cat.items.findIdx? (fun i => i.id == itemId) = some idx) :
    (handleUndo (handleDeleteItem categoryId itemId s)).categories = s.categories ∧
    (handleUndo (handleDeleteItem categoryId itemId s)).undoAction = none := by
  obtain ⟨hlt, hfi⟩ := List.findIdx?_eq_some_iff_findIdx_eq.mp hidx
  have hne1 : ((idx : Int) == -1) = false := by
    rw [beq_eq_false_iff_ne]
    omega
  have hgetp : cat.items[(idx : Int).toNat]? = some (cat.items.get ⟨idx, hlt⟩) := by
    have : ((idx : Int)).toNat = idx := rfl
    rw [this]
    simp [List.getElem?_eq_getElem hlt]
  have hgetp2 : cat.items[idx]? = some (cat.items.get ⟨idx, hlt⟩) := by
    simp [List.getElem?_eq_getElem hlt]
  have hkey : (cat.items.get ⟨idx, hlt⟩).id = itemId := by
    have := findIdx_get_eq (fun i => i.id == itemId) cat.items idx hlt hfi
    simpa using this
  constructor
  · simp only [handleDeleteItem, hfindc, findIndex_eq_of_findIdx? _ _ _ hidx, hne1,
      Bool.false_eq_true, if_false, hgetp, handleUndo]
    refine map_map_id_of _ _ _ (fun c hc => ?_)
    by_cases hcid : c.id == categoryId
    · have hcid' : c.id = categoryId := by simpa using hcid
      have hceq : c = cat := eq_find?_of_key (fun x => x.id) categoryId hndc hfindc hc hcid'
      subst hceq
      simp only [hcid, if_true, if_pos]
      refine congrArg (fun l => { c with items := l }) ?_
      rw [filter_bne_eq_eraseIdx (fun i => i.id) itemId c.items idx hlt hnd_items hkey]
      have hlen : (c.items.eraseIdx idx).length = c.items.length - 1 := by
        rw [List.length_eraseIdx, if_pos hlt]
      have hss : spliceStart (c.items.eraseIdx idx).length (idx : Int) = idx := by
        unfold spliceStart
        have h1 : ¬((idx : Int) < 0) := by omega
        rw [if_neg h1]
        have : ((idx : Int)).toNat = idx := rfl
        rw [this, hlen]
        omega
      unfold spliceInsert
      rw [hss]
      exact insertIdx_eraseIdx_self c.items idx hlt
    · simp [hcid]
  · simp [handleDeleteItem, hfindc, findIndex_eq_of_findIdx? _ _ _ hidx, hne1, hgetp,
      hgetp2, handleUndo]

/-- Undoing a category delete reinserts the deleted category at its index,
provided category ids are unique. -/
theorem undo_handleDeleteCategory (categoryId : String) (idx : Nat) (s : AppState)
    (hndc : (s.categories.map (fun c => c.id)).Nodup)
    (hidx : s.categories.findIdx? (fun c => c.id == categoryId) = some idx) :
    (handleUndo (handleDeleteCategory categoryId s)).categories = s.categories ∧
    (handleUndo (handleDeleteCategory categoryId s)).undoAction = none := by
  obtain ⟨hlt, hfi⟩ := List.findIdx?_eq_some_iff_findIdx_eq.mp hidx
  have hfind : s.categories.find? (fun c => c.id == categoryId) =
      some (s.categories.get ⟨idx, hlt⟩) :=
    find?_eq_some_get_of_findIdx_eq (fun c => c.id == categoryId) s.categories idx hlt hfi
  have hkey : (s.categories.get ⟨idx, hlt⟩).id = categoryId := by
    have := findIdx_get_eq (fun c => c.id == categoryId) s.categories idx hlt hfi
    simpa using this
  constructor
  · simp only [handleDeleteCategory, hfind, findIndex_eq_of_findIdx? _ _ _ hidx,
      handleUndo]
    rw [filter_bne_eq_eraseIdx (fun c => c.id) categoryId s.categories idx hlt hndc hkey]
    have hlen : (s.categories.eraseIdx idx).length = s.categories.length - 1 := by
      rw [List.length_eraseIdx, if_pos hlt]
    have hss : spliceStart (s.categories.eraseIdx idx).length (idx : Int) = idx := by
      unfold spliceStart
      have h1 : ¬((idx : Int) < 0) := by omega
      rw [if_neg h1]
      have : ((idx : Int)).toNat = idx := rfl
      rw [this, hlen]
      omega
    unfold spliceInsert
    rw [hss]
    exact insertIdx_eraseIdx_self s.categories idx hlt
  · simp [handleDeleteCategory, hfind, findIndex_eq_of_findIdx? _ _ _ hidx, handleUndo]

/-! ## Claim C1: undo reverses each mutating operation -/

/-- **C1** (amended): for every store, running any of the seven
undo-recording operations and then `handleUndo` restores the category
collection exactly and clears the record, under the provisos the code
forces: the generated ids of the add operations are fresh, stored ids are
pairwise distinct where the operation resolves its target by id, the drag
and delete targets exist — and, the amendment, a notes update is exactly
reversed only when the targeted item had its notes field defined (an
absent notes field is read back through `item.notes || ''` and restored
as the empty string, see the counterexample). -/
theorem c1_undo_reverses_each_mutation :
    (∀ (now : Nat) (name icon : String) (s : AppState),
      (∀ c ∈ s.categories, c.id ≠ "cat-" ++ toString now) →
      (handleUndo (handleAddCategory now name icon s)).categories = s.categories ∧
      (handleUndo (handleAddCategory now name icon s)).undoAction = none) ∧
    (∀ (now : Nat) (categoryId content : String) (dueDate : Option String) (s : AppState),
      (∀ c ∈ s.categories, c.id = categoryId →
        ∀ i ∈ c.items, i.id ≠ "item-" ++ toString now) →
      (handleUndo (handleAddItem now categoryId content dueDate s)).categories =
        s.categories ∧
      (handleUndo (handleAddItem now categoryId content dueDate s)).undoAction = none) ∧
    (∀ (categoryId itemId : String) (s : AppState),
      (handleUndo (handleToggleItem categoryId itemId s)).categories = s.categories ∧
      (handleUndo (handleToggleItem categoryId itemId s)).undoAction = none) ∧
    (∀ (categoryId itemId notes : String) (s : AppState),
      (s.categories.map (fun c => c.id)).Nodup →
      (∀ c ∈ s.categories, c.id = categoryId →
        (c.items.map (fun i => i.id)).Nodup ∧
        ∀ i ∈ c.items, i.id = itemId → i.notes.isSome) →
      (handleUndo (handleUpdateItemNotes categoryId itemId notes s)).categories =
        s.categories ∧
      (handleUndo (handleUpdateItemNotes categoryId itemId notes s)).undoAction = none) ∧
    (∀ (activeId overId acid : String) (cat : Category) (i j : Nat) (s : AppState),
      (s.categories.map (fun c => c.id)).Nodup →
      s.activeCategoryId = some acid →
      s.categories.find? (fun c => c.id == acid) = some cat →
      activeId ≠ overId →
      cat.items.findIdx? (fun it => it.id == activeId) = some i →
      cat.items.findIdx? (fun it => it.id == overId) = some j →
      (handleUndo (handleDragEnd activeId overId s)).categories = s.categories ∧
      (handleUndo (handleDragEnd activeId overId s)).undoAction = none) ∧
    (∀ (categoryId itemId : String) (cat : Category) (idx : Nat) (s : AppState),
      (s.categories.map (fun c => c.id)).Nodup →
      s.categories.find? (fun c => c.id == categoryId) = some cat →
      (cat.items.map (fun i => i.id)).Nodup →
      cat.items.findIdx? (fun i => i.id == itemId) = some idx →
      (handleUndo (handleDeleteItem categoryId itemId s)).categories = s.categories ∧
      (handleUndo (handleDeleteItem categoryId itemId s)).undoAction = none) ∧
    (∀ (categoryId : String) (idx : Nat) (s : AppState),
      (s.categories.map (fun c => c.id)).Nodup →
      s.categories.findIdx? (fun c => c.id == categoryId) = some idx →
      (handleUndo (handleDeleteCategory categoryId s)).categories = s.categories ∧
      (handleUndo (handleDeleteCategory categoryId s)).undoAction = none) :=
  ⟨undo_handleAddCategory, undo_handleAddItem, undo_handleToggleItem,
    undo_handleUpdateItemNotes, undo_handleDragEnd, undo_handleDeleteItem,
    undo_handleDeleteCategory⟩

/-- **C1** witness: the notes-update and category-add round-trips at a
concrete store. -/
theorem c1_undo_reverses_each_mutation_witness :
    ((handleUndo (handleUpdateItemNotes ("cat-1") ("item-1") ("x") sampleState)).categories =
        sampleState.categories ∧
      (handleUndo (handleUpdateItemNotes ("cat-1") ("item-1") ("x") sampleState)).undoAction =
        none) ∧
    ((handleUndo (handleAddCategory 7 ("A") ("ListTodo") sampleState)).categories =
        sampleState.categories ∧
      (handleUndo (handleAddCategory 7 ("A") ("ListTodo") sampleState)).undoAction = none) :=
  ⟨c1_undo_reverses_each_mutation.2.2.2.1 ("cat-1") ("item-1") ("x") sampleState
      (by decide) (by decide),
    c1_undo_reverses_each_mutation.1 7 ("A") ("ListTodo") sampleState (by decide)⟩

/-- **C1** counterexample: updating the notes of an item whose notes field
is absent and then undoing does not restore the previous collection — the
absent notes come back as `some ""`. -/
theorem c1_notes_undo_counterexample :
    (handleUndo (handleUpdateItemNotes ("cat-1") ("item-2") ("x") sampleState)).categories ≠
      sampleState.categories := by
  decide

/-! ## Claim C2: deleting a non-empty category requires confirmation -/

/-- **C2** fails in the code (the claim matches the stated intent: the
system instruction tells the model to demand confirmation before a
`delete_category` on a non-empty list, and `App` carries a
`confirmAction` state rendering a `ConfirmationDialog` — but no code path
ever sets it).  At a concrete store whose category `cat-1` is non-empty:
one `delete_category` AI action removes it outright, the direct
`handleDeleteCategory` removes it outright, and — universally — neither
these handlers nor undo ever write a confirmation request, so no
confirmation step can precede any delete. -/
theorem c2_delete_finalized_without_confirmation :
    ((sampleState.categories.find? (fun c => c.id == "cat-1")).isSome ∧
      (∀ c ∈ sampleState.categories, c.id = "cat-1" → c.items ≠ []) ∧
      sampleState.confirmAction = none) ∧
    ((handleSendMessage (fun _ => "g") 9 ("supprime la liste achats") true
        (.ok deleteAchatsAction) sampleState).categories.find?
          (fun c => c.id == "cat-1") = none ∧
      (handleSendMessage (fun _ => "g") 9 ("supprime la liste achats") true
        (.ok deleteAchatsAction) sampleState).confirmAction = none) ∧
    ((handleDeleteCategory ("cat-1") sampleState).categories.find?
        (fun c => c.id == "cat-1") = none ∧
      (handleDeleteCategory ("cat-1") sampleState).confirmAction = none) ∧
    (∀ (categoryId : String) (s : AppState),
      (handleDeleteCategory categoryId s).confirmAction = s.confirmAction) ∧
    (∀ (gen : Nat → String) (now : Nat) (text : String) (hasAI : Bool)
      (parsed : Except Unit AIResult) (s : AppState),
      (handleSendMessage gen now text hasAI parsed s).confirmAction = s.confirmAction) ∧
    (∀ s : AppState, (handleUndo s).confirmAction = s.confirmAction) := by
  refine ⟨by decide, by decide, by decide, ?_, ?_, ?_⟩
  · intro categoryId s
    unfold handleDeleteCategory
    cases h : s.categories.find? (fun c => c.id == categoryId) <;> simp [h]
  · intro gen now text hasAI parsed s
    unfold handleSendMessage
    split
    · rfl
    · split
      · rfl
      · cases parsed with
        | error e => rfl
        | ok result =>
          cases h : applyAIResult gen now result s.categories s.activeCategoryId with
          | error e => simp [h]
          | ok pr => cases pr with
            | mk a b => simp [h]
  · intro s
    unfold handleUndo
    cases h : s.undoAction with
    | none => rfl
    | some ua => cases ua <;> simp

/-! ## Claims C9 and C10: failure handling and the non-mutating frame -/

/-- **C9**: a response text that fails `JSON.parse`, and likewise an
exception raised while applying the parsed action, is caught by
`handleSendMessage`: exactly one generic apology message from the `ai`
sender is appended after the user message, and the categories are left
untouched.  (On a parse failure the pending undo also survives, the clear
at line 267 not having been reached; on an apply failure it was already
cleared.) -/
theorem c9_parse_and_apply_failures_caught :
    (∀ (gen : Nat → String) (now : Nat) (text : String) (s : AppState),
      (text.toList.all (fun ch => ch.isWhitespace)) = false →
      (handleSendMessage gen now text true (.error ()) s).messages =
        s.messages ++ [⟨"msg-" ++ toString now, text, .user⟩,
          ⟨"msg-" ++ toString (now + 1), "Désolé, une erreur est survenue.", .ai⟩] ∧
      (handleSendMessage gen now text true (.error ()) s).categories = s.categories ∧
      (handleSendMessage gen now text true (.error ()) s).activeCategoryId =
        s.activeCategoryId ∧
      (handleSendMessage gen now text true (.error ()) s).undoAction = s.undoAction) ∧
    (∀ (gen : Nat → String) (now : Nat) (text : String) (r : AIResult) (s : AppState),
      (text.toList.all (fun ch => ch.isWhitespace)) = false →
      applyAIResult gen now r s.categories s.activeCategoryId = .error () →
      (handleSendMessage gen now text true (.ok r) s).messages =
        s.messages ++ [⟨"msg-" ++ toString now, text, .user⟩,
          ⟨"msg-" ++ toString (now + 1), "Désolé, une erreur est survenue.", .ai⟩] ∧
      (handleSendMessage gen now text true (.ok r) s).categories = s.categories ∧
      (handleSendMessage gen now text true (.ok r) s).activeCategoryId =
        s.activeCategoryId ∧
      (handleSendMessage gen now text true (.ok r) s).undoAction = none) := by
  constructor
  · intro gen now text s hws
    simp only [handleSendMessage, hws, Bool.false_eq_true, if_false]
    simp
  · intro gen now text r s hws happly
    simp only [handleSendMessage, hws, Bool.false_eq_true, if_false]
    simp [happly]

/-- **C9** witness: a parse failure, and an apply failure (a
`merge_categories` response whose `sourceName` is missing raises at the
dereference), both at a concrete store. -/
theorem c9_parse_and_apply_failures_caught_witness :
    ((handleSendMessage (fun _ => "g") 5 ("bonjour") true (.error ()) sampleState).messages =
      sampleState.messages ++ [⟨"msg-5", "bonjour", .user⟩,
        ⟨"msg-6", "Désolé, une erreur est survenue.", .ai⟩] ∧
      (handleSendMessage (fun _ => "g") 5 ("bonjour") true (.error ()) sampleState).categories =
        sampleState.categories ∧
      (handleSendMessage (fun _ => "g") 5 ("bonjour") true (.error ()) sampleState).activeCategoryId =
        sampleState.activeCategoryId ∧
      (handleSendMessage (fun _ => "g") 5 ("bonjour") true (.error ()) sampleState).undoAction =
        sampleState.undoAction) ∧
    ((handleSendMessage (fun _ => "g") 5 ("fusionne") true
        (.ok ⟨"merge_categories", "ok", none, some ⟨none, none, none, none, some "Films"⟩, none⟩)
        sampleState).messages =
      sampleState.messages ++ [⟨"msg-5", "fusionne", .user⟩,
        ⟨"msg-6", "Désolé, une erreur est survenue.", .ai⟩] ∧
      (handleSendMessage (fun _ => "g") 5 ("fusionne") true
        (.ok ⟨"merge_categories", "ok", none, some ⟨none, none, none, none, some "Films"⟩, none⟩)
        sampleState).categories = sampleState.categories ∧
      (handleSendMessage (fun _ => "g") 5 ("fusionne") true
        (.ok ⟨"merge_categories", "ok", none, some ⟨none, none, none, none, some "Films"⟩, none⟩)
        sampleState).activeCategoryId = sampleState.activeCategoryId ∧
      (handleSendMessage (fun _ => "g") 5 ("fusionne") true
        (.ok ⟨"merge_categories", "ok", none, some ⟨none, none, none, none, some "Films"⟩, none⟩)
        sampleState).undoAction = none) :=
  ⟨c9_parse_and_apply_failures_caught.1 (fun _ => "g") 5 ("bonjour") sampleState (by decide),
    c9_parse_and_apply_failures_caught.2 (fun _ => "g") 5 ("fusionne")
      ⟨"merge_categories", "ok", none, some ⟨none, none, none, none, some "Films"⟩, none⟩
      sampleState (by decide) (by rfl)⟩

/-- **C10**: a successfully parsed response whose action is outside the
mutating enumeration (`query`, `chat`, `confirm_add`, or any unhandled
value) leaves every category — hence every item — and the active id
unchanged; only the chat log grows by the user and ai messages, and the
pending undo record is cleared. -/
theorem c10_nonmutating_actions_leave_store_unchanged :
    ∀ (gen : Nat → String) (now : Nat) (text : String) (r : AIResult) (s : AppState),
      (text.toList.all (fun ch => ch.isWhitespace)) = false →
      r.action ∉ (["add", "update", "create_category", "rename_category",
        "delete_category", "merge_categories", "delete"] : List String) →
      (handleSendMessage gen now text true (.ok r) s).categories = s.categories ∧
      (handleSendMessage gen now text true (.ok r) s).activeCategoryId =
        s.activeCategoryId ∧
      (handleSendMessage gen now text true (.ok r) s).undoAction = none ∧
      (handleSendMessage gen now text true (.ok r) s).confirmAction = s.confirmAction ∧
      (handleSendMessage gen now text true (.ok r) s).messages =
        s.messages ++ [⟨"msg-" ++ toString now, text, .user⟩,
          ⟨"msg-" ++ toString (now + 1), r.response, .ai⟩] := by
  intro gen now text r s hws hact
  simp only [List.mem_cons, List.not_mem_nil, or_false, not_or] at hact
  obtain ⟨h1, h2, h3, h4, h5, h6, h7⟩ := hact
  have happly : applyAIResult gen now r s.categories s.activeCategoryId =
      .ok (s.categories, s.activeCategoryId) := by
    unfold applyAIResult applyAIResultWith
    simp [beq_eq_false_iff_ne, h1, h2, h3, h4, h5, h6, h7]
  simp only [handleSendMessage, hws, Bool.false_eq_true, if_false]
  simp [happly]

/-- **C10** witness: a `chat` action at a concrete store. -/
theorem c10_nonmutating_actions_leave_store_unchanged_witness :
    (handleSendMessage (fun _ => "g") 5 ("salut") true
      (.ok ⟨"chat", "bonjour", none, none, none⟩) sampleState).categories =
        sampleState.categories ∧
    (handleSendMessage (fun _ => "g") 5 ("salut") true
      (.ok ⟨"chat", "bonjour", none, none, none⟩) sampleState).activeCategoryId =
        sampleState.activeCategoryId ∧
    (handleSendMessage (fun _ => "g") 5 ("salut") true
      (.ok ⟨"chat", "bonjour", none, none, none⟩) sampleState).undoAction = none ∧
    (handleSendMessage (fun _ => "g") 5 ("salut") true
      (.ok ⟨"chat", "bonjour", none, none, none⟩) sampleState).confirmAction =
        sampleState.confirmAction ∧
    (handleSendMessage (fun _ => "g") 5 ("salut") true
      (.ok ⟨"chat", "bonjour", none, none, none⟩) sampleState).messages =
        sampleState.messages ++ [⟨"msg-5", "salut", .user⟩, ⟨"msg-6", "bonjour", .ai⟩] :=
  c10_nonmutating_actions_leave_store_unchanged (fun _ => "g") 5 ("salut")
    ⟨"chat", "bonjour", none, none, none⟩ sampleState (by decide) (by decide)

/-! ## Claim C3: merging categories -/

/-- **C3**: for every lowering `low` — in particular the engine's Unicode
`String.prototype.toLowerCase`, which the action switch is parametric in —
when the `merge_categories` action resolves a source and a destination by
case-insensitive name, the two names differ in lowercase, and category
ids are pairwise distinct, the action succeeds and produces a collection
in which the destination holds its old items followed by all of the
source's items, the source is gone, and every other category is unchanged
(present as before, with nothing else added and exactly one category
fewer). -/
theorem c3_merge_moves_items_and_removes_source
    (low : String → String) (gen : Nat → String) (now : Nat) (resp sn dn : String)
    (cats : List Category) (activeId : Option String) (sc dc : Category)
    (hnd : (cats.map (fun c => c.id)).Nodup)
    (hs : cats.find? (fun c => low c.name == low sn) = some sc)
    (hd : cats.find? (fun c => low c.name == low dn) = some dc)
    (hne : low sn ≠ low dn) :
    ∃ newCats,
      applyAIResultWith low gen now
        ⟨"merge_categories", resp, none, some ⟨none, none, none, some sn, some dn⟩, none⟩
        cats activeId = .ok (newCats, activeId) ∧
      ({ dc with items := dc.items ++ sc.items } ∈ newCats) ∧
      (∀ c ∈ newCats, c.id ≠ sc.id) ∧
      (∀ c ∈ cats, c.id ≠ sc.id → c.id ≠ dc.id → c ∈ newCats) ∧
      (∀ c ∈ newCats, c = { dc with items := dc.items ++ sc.items } ∨ c ∈ cats) ∧
      newCats.length + 1 = cats.length := by
  have hscm : sc ∈ cats := List.mem_of_find?_eq_some hs
  have hdcm : dc ∈ cats := List.mem_of_find?_eq_some hd
  have hsn : low sc.name = low sn := by
    have := List.find?_some hs
    simpa [beq_iff_eq] using this
  have hdn : low dc.name = low dn := by
    have := List.find?_some hd
    simpa [beq_iff_eq] using this
  have hscdc : sc.id ≠ dc.id := by
    intro he
    have : sc = dc := List.inj_on_of_nodup_map hnd hscm hdcm he
    exact hne (by rw [← hsn, this, hdn])
  set f : Category → Category :=
    fun c => if c.id == dc.id then { c with items := c.items ++ sc.items } else c with hf
  have hfid : ∀ c, (f c).id = c.id := by
    intro c
    by_cases h : c.id = dc.id <;> simp [hf, h]
  refine ⟨(cats.map f).filter (fun c => c.id != sc.id), ?_, ?_, ?_, ?_, ?_, ?_⟩
  · unfold applyAIResultWith
    simp [require, bind, Except.bind, hs, hd, hf]
  · have hfdc : f dc = { dc with items := dc.items ++ sc.items } := by simp [hf]
    refine List.mem_filter.mpr ⟨?_, ?_⟩
    · rw [← hfdc]
      exact List.mem_map_of_mem f hdcm
    · simpa using Ne.symm hscdc
  · intro c hc
    have := (List.mem_filter.mp hc).2
    simpa using this
  · intro c hc hcs hcd
    refine List.mem_filter.mpr ⟨?_, by simpa using hcs⟩
    have hfc : f c = c := by simp [hf, hcd]
    rw [← hfc]
    exact List.mem_map_of_mem f hc
  · intro c hc
    obtain ⟨c0, hc0, hfc0⟩ := List.mem_map.mp (List.mem_filter.mp hc).1
    by_cases hcd : c0.id = dc.id
    · left
      have : c0 = dc := List.inj_on_of_nodup_map hnd hc0 hdcm hcd
      subst this
      rw [← hfc0]
      simp [hf]
    · right
      have : f c0 = c0 := by simp [hf, hcd]
      rw [← hfc0, this]
      exact hc0
  · have hkeys : ((cats.map f).map (fun c => c.id)).Nodup := by
      have : (cats.map f).map (fun c => c.id) = cats.map (fun c => c.id) := by
        rw [List.map_map]
        exact List.map_congr_left (fun c _ => hfid c)
      rw [this]
      exact hnd
    have hscf : f sc = sc := by simp [hf, hscdc]
    have hmem : sc ∈ cats.map f := by
      rw [← hscf]
      exact List.mem_map_of_mem f hscm
    obtain ⟨⟨idx, hidx⟩, hget⟩ := List.mem_iff_get.mp hmem
    have := filter_bne_eq_eraseIdx (fun c => c.id) sc.id (cats.map f) idx hidx hkeys
      (by rw [hget])
    rw [this, List.length_eraseIdx, if_pos hidx]
    have : (cats.map f).length = cats.length := List.length_map _ _
    have hpos : 0 < cats.length := List.length_pos_of_mem hscm
    omega

/-- **C3** witness, at the reviewer-relevant accent case: the lowering
instantiated by the executable `toLowerCase` (faithful to the engine on
this data), merging source name `à faire` — which resolves the stored
category `À Faire` case-insensitively — into `ACHATS`. -/
theorem c3_merge_moves_items_and_removes_source_witness :
    ∃ newCats,
      applyAIResultWith toLowerCase (fun _ => "g") 9
        ⟨"merge_categories", "ok", none,
          some ⟨none, none, none, some "à faire", some "ACHATS"⟩, none⟩
        sampleCategoriesFr (some "cat-1") = .ok (newCats, some "cat-1") ∧
      ((⟨"cat-2", "Achats", "ShoppingCart",
          [⟨"item-2", "Lait", false, none, none⟩,
            ⟨"item-1", "Appeler le médecin", false, none, none⟩]⟩ : Category) ∈ newCats) ∧
      (∀ c ∈ newCats, c.id ≠ "cat-1") ∧
      (∀ c ∈ sampleCategoriesFr, c.id ≠ "cat-1" → c.id ≠ "cat-2" → c ∈ newCats) ∧
      (∀ c ∈ newCats,
        c = (⟨"cat-2", "Achats", "ShoppingCart",
          [⟨"item-2", "Lait", false, none, none⟩,
            ⟨"item-1", "Appeler le médecin", false, none, none⟩]⟩ : Category) ∨
          c ∈ sampleCategoriesFr) ∧
      newCats.length + 1 = sampleCategoriesFr.length := by
  have h := c3_merge_moves_items_and_removes_source toLowerCase (fun _ => "g") 9 ("ok")
    ("à faire") ("ACHATS") sampleCategoriesFr (some "cat-1")
    ⟨"cat-1", "À Faire", "ListTodo",
      [⟨"item-1", "Appeler le médecin", false, none, none⟩]⟩
    ⟨"cat-2", "Achats", "ShoppingCart", [⟨"item-2", "Lait", false, none, none⟩]⟩
    (by decide) (by decide) (by decide) (by decide)
  simpa using h

/-! ## Claim C4: drag reorder permutes the active list -/

/-- **C4**: a drag event whose `active` and `over` ids are distinct ids of
items of the active category (with category ids pairwise distinct, so that
the by-id update touches one category) reorders that category's item list
into a permutation — same length, the same items — and leaves every other
category, and the order of the categories themselves, unchanged. -/
theorem c4_drag_reorders_as_permutation
    (activeId overId acid : String) (cat : Category) (i j : Nat) (s : AppState)
    (hndc : (s.categories.map (fun c => c.id)).Nodup)
    (hacid : s.activeCategoryId = some acid)
    (hfind : s.categories.find? (fun c => c.id == acid) = some cat)
    (hne : activeId ≠ overId)
    (hi : cat.items.findIdx? (fun it => it.id == activeId) = some i)
    (hj : cat.items.findIdx? (fun it => it.id == overId) = some j) :
    (handleDragEnd activeId overId s).categories.length = s.categories.length ∧
    (∀ (k : Nat) (hk : k < s.categories.length)
        (hk2 : k < (handleDragEnd activeId overId s).categories.length),
      (((handleDragEnd activeId overId s).categories.get ⟨k, hk2⟩).id =
        (s.categories.get ⟨k, hk⟩).id ∧
       ((handleDragEnd activeId overId s).categories.get ⟨k, hk2⟩).name =
        (s.categories.get ⟨k, hk⟩).name ∧
       ((handleDragEnd activeId overId s).categories.get ⟨k, hk2⟩).items.Perm
        (s.categories.get ⟨k, hk⟩).items ∧
       ((handleDragEnd activeId overId s).categories.get ⟨k, hk2⟩).items.length =
        (s.categories.get ⟨k, hk⟩).items.length) ∧
      ((s.categories.get ⟨k, hk⟩).id ≠ acid →
        (handleDragEnd activeId overId s).categories.get ⟨k, hk2⟩ =
          s.categories.get ⟨k, hk⟩)) := by
  have hbeq : (activeId == overId) = false := by simpa using hne
  have hi' : i < cat.items.length := (List.findIdx?_eq_some_iff_findIdx_eq.mp hi).1
  have hj' : j < cat.items.length := (List.findIdx?_eq_some_iff_findIdx_eq.mp hj).1
  have hcats : (handleDragEnd activeId overId s).categories =
      s.categories.map (fun c =>
        if c.id == acid then { c with items := arrayMove c.items (i : Int) (j : Int) }
        else c) := by
    simp [handleDragEnd, hbeq, hacid, hfind,
      findIndex_eq_of_findIdx? _ _ _ hi, findIndex_eq_of_findIdx? _ _ _ hj]
  constructor
  · rw [hcats]
    exact List.length_map _ _
  · intro k hk hk2
    have hget : (handleDragEnd activeId overId s).categories.get ⟨k, hk2⟩ =
        (fun c => if c.id == acid then
            { c with items := arrayMove c.items (i : Int) (j : Int) } else c)
          (s.categories.get ⟨k, hk⟩) := by
      have := List.get_of_eq hcats ⟨k, hk2⟩
      rw [this]
      simp
    by_cases hcid : (s.categories.get ⟨k, hk⟩).id = acid
    · have hmem : s.categories.get ⟨k, hk⟩ ∈ s.categories := List.get_mem _ _ _
      have hceq : s.categories.get ⟨k, hk⟩ = cat :=
        eq_find?_of_key (fun x => x.id) acid hndc hfind hmem hcid
      have hperm : (arrayMove (s.categories.get ⟨k, hk⟩).items (i : Int) (j : Int)).Perm
          (s.categories.get ⟨k, hk⟩).items := by
        rw [hceq]
        exact arrayMove_perm cat.items i j hi' hj'
      have hcbeq : ((s.categories.get ⟨k, hk⟩).id == acid) = true := by simpa using hcid
      have heq : (handleDragEnd activeId overId s).categories.get ⟨k, hk2⟩ =
          { s.categories.get ⟨k, hk⟩ with
            items := arrayMove (s.categories.get ⟨k, hk⟩).items (i : Int) (j : Int) } := by
        rw [hget]
        simp only [hcbeq, if_true, if_pos]
      refine ⟨?_, fun h => absurd hcid h⟩
      rw [heq]
      exact ⟨rfl, rfl, hperm, hperm.length_eq⟩
    · have hcbeq : ((s.categories.get ⟨k, hk⟩).id == acid) = false := by
        simpa using hcid
      have heq : (handleDragEnd activeId overId s).categories.get ⟨k, hk2⟩ =
          s.categories.get ⟨k, hk⟩ := by
        rw [hget]
        exact if_neg (by simpa using hcid)
      rw [heq]
      exact ⟨⟨rfl, rfl, List.Perm.refl _, rfl⟩, fun _ => rfl⟩

/-- **C4** witness: dragging `item-1` over `item-2` inside `cat-1` at a
concrete store. -/
theorem c4_drag_reorders_as_permutation_witness :
    (handleDragEnd ("item-1") ("item-2") sampleState).categories.length =
      sampleState.categories.length ∧
    (∀ (k : Nat) (hk : k < sampleState.categories.length)
        (hk2 : k < (handleDragEnd ("item-1") ("item-2") sampleState).categories.length),
      (((handleDragEnd ("item-1") ("item-2") sampleState).categories.get ⟨k, hk2⟩).id =
        (sampleState.categories.get ⟨k, hk⟩).id ∧
       ((handleDragEnd ("item-1") ("item-2") sampleState).categories.get ⟨k, hk2⟩).name =
        (sampleState.categories.get ⟨k, hk⟩).name ∧
       ((handleDragEnd ("item-1") ("item-2") sampleState).categories.get ⟨k, hk2⟩).items.Perm
        (sampleState.categories.get ⟨k, hk⟩).items ∧
       ((handleDragEnd ("item-1") ("item-2") sampleState).categories.get ⟨k, hk2⟩).items.length =
        (sampleState.categories.get ⟨k, hk⟩).items.length) ∧
      ((sampleState.categories.get ⟨k, hk⟩).id ≠ "cat-1" →
        (handleDragEnd ("item-1") ("item-2") sampleState).categories.get ⟨k, hk2⟩ =
          sampleState.categories.get ⟨k, hk⟩)) :=
  c4_drag_reorders_as_permutation ("item-1") ("item-2") ("cat-1")
    ⟨"cat-1", "Achats", "ShoppingCart",
      [⟨"item-1", "Lait", false, none, some "bio"⟩, ⟨"item-2", "Pain", false, none, none⟩]⟩
    0 1 sampleState (by decide) (by decide) (by decide) (by decide) (by decide) (by decide)

/-! ## Claim C7: at most one undo record, most-recent-wins, timed expiry -/

/-- **C7**: the pending undo lives in one `Option UndoAction` hook, so at
most one record is ever held; every mutating operation writes its own
record regardless of what was held before (the conclusions below do not
depend on the incoming `undoAction`, so any previous record is
overwritten), and the expiry timer — armed for a fixed 5100 ms whenever a
record is set — clears the record unconditionally without touching
anything else. -/
theorem c7_single_undo_record_most_recent_wins :
    (∀ (now : Nat) (name icon : String) (s : AppState),
      (handleAddCategory now name icon s).undoAction =
        some (.categoryAdd ("cat-" ++ toString now))) ∧
    (∀ (categoryId : String) (cat : Category) (s : AppState),
      s.categories.find? (fun c => c.id == categoryId) = some cat →
      (handleDeleteCategory categoryId s).undoAction =
        some (.categoryDelete cat (findIndex (fun c => c.id == categoryId) s.categories))) ∧
    (∀ (now : Nat) (categoryId content : String) (dueDate : Option String) (s : AppState),
      (handleAddItem now categoryId content dueDate s).undoAction =
        some (.itemAdd categoryId ("item-" ++ toString now))) ∧
    (∀ (categoryId itemId : String) (s : AppState),
      (handleToggleItem categoryId itemId s).undoAction =
        some (.itemToggle categoryId itemId)) ∧
    (∀ (categoryId itemId : String) (cat : Category) (idx : Nat) (s : AppState),
      s.categories.find? (fun c => c.id == categoryId) = some cat →
      cat.items.findIdx? (fun i => i.id == itemId) = some idx →
      ∃ deletedItem, cat.items[idx]? = some deletedItem ∧
        (handleDeleteItem categoryId itemId s).undoAction =
          some (.itemDelete categoryId deletedItem (idx : Int))) ∧
    (∀ (categoryId itemId notes : String) (s : AppState),
      ∃ prevNotes, (handleUpdateItemNotes categoryId itemId notes s).undoAction =
        some (.itemNotesUpdate categoryId itemId prevNotes)) ∧
    (∀ (activeId overId acid : String) (cat : Category) (s : AppState),
      activeId ≠ overId →
      s.activeCategoryId = some acid →
      s.categories.find? (fun c => c.id == acid) = some cat →
      (handleDragEnd activeId overId s).undoAction =
        some (.itemDrag acid (findIndex (fun it => it.id == activeId) cat.items)
          (findIndex (fun it => it.id == overId) cat.items))) ∧
    (∀ s : AppState, (undoExpire s).undoAction = none ∧
      (undoExpire s).categories = s.categories ∧
      (undoExpire s).activeCategoryId = s.activeCategoryId ∧
      (undoExpire s).messages = s.messages) ∧
    undoClearDelayMs = 5100 := by
  refine ⟨fun now name icon s => rfl, ?_, fun now cid content d s => rfl,
    fun cid iid s => rfl, ?_, ?_, ?_, fun s => ⟨rfl, rfl, rfl, rfl⟩, rfl⟩
  · intro categoryId cat s hfind
    simp [handleDeleteCategory, hfind]
  · intro categoryId itemId cat idx s hfind hidx
    obtain ⟨hlt, hfi⟩ := List.findIdx?_eq_some_iff_findIdx_eq.mp hidx
    have hne1 : ((idx : Int) == -1) = false := by
      rw [beq_eq_false_iff_ne]
      omega
    refine ⟨cat.items.get ⟨idx, hlt⟩, by simp [List.getElem?_eq_getElem hlt], ?_⟩
    have hgetp : cat.items[(idx : Int).toNat]? = some (cat.items.get ⟨idx, hlt⟩) := by
      have : ((idx : Int)).toNat = idx := rfl
      rw [this]
      simp [List.getElem?_eq_getElem hlt]
    simp [handleDeleteItem, hfind, findIndex_eq_of_findIdx? _ _ _ hidx, hne1, hgetp,
      List.getElem?_eq_getElem hlt]
  · intro categoryId itemId notes s
    exact ⟨_, rfl⟩
  · intro activeId overId acid cat s hne hacid hfind
    have hbeq : (activeId == overId) = false := by simpa using hne
    simp [handleDragEnd, hbeq, hacid, hfind]

/-- **C7** witness: the delete-category and drag conjuncts at a concrete
store. -/
theorem c7_single_undo_record_most_recent_wins_witness :
    ((handleDeleteCategory ("cat-2") sampleState).undoAction =
      some (.categoryDelete ⟨"cat-2", "Films", "Clapperboard", []⟩
        (findIndex (fun c => c.id == "cat-2") sampleState.categories))) ∧
    ((handleDragEnd ("item-2") ("item-1") sampleState).undoAction =
      some (.itemDrag ("cat-1")
        (findIndex (fun it : Item => it.id == "item-2")
          ([⟨"item-1", "Lait", false, none, some "bio"⟩,
            ⟨"item-2", "Pain", false, none, none⟩] : List Item))
        (findIndex (fun it : Item => it.id == "item-1")
          ([⟨"item-1", "Lait", false, none, some "bio"⟩,
            ⟨"item-2", "Pain", false, none, none⟩] : List Item)))) :=
  ⟨c7_single_undo_record_most_recent_wins.2.1 ("cat-2")
      ⟨"cat-2", "Films", "Clapperboard", []⟩ sampleState (by decide),
    c7_single_undo_record_most_recent_wins.2.2.2.2.2.2.1 ("item-2") ("item-1") ("cat-1")
      ⟨"cat-1", "Achats", "ShoppingCart",
        [⟨"item-1", "Lait", false, none, some "bio"⟩, ⟨"item-2", "Pain", false, none, none⟩]⟩
      sampleState (by decide) (by decide) (by decide)⟩

/-! ## Rename-invariance helpers (claim C8) -/

/-- The `add` loop only reads the lowered form of `categoryName`. -/
theorem aiAddItems_rename (low : String → String) (gen : Nat → String)
    (σ : String → String) (hσ : ∀ x, low (σ x) = low x) :
    ∀ (ps : List AIItemPayload) (idx : Nat) (cats : List Category),
      aiAddItems low gen idx
        (ps.map (fun p => { p with categoryName := σ p.categoryName })) cats =
      aiAddItems low gen idx ps cats
  | [], _, _ => rfl
  | p :: rest, idx, cats => by
    simp only [List.map_cons, aiAddItems, hσ]
    exact aiAddItems_rename low gen σ hσ rest (idx + 1) _

/-- The `update` loop only reads the lowered forms of `categoryName`
and `content`. -/
theorem aiUpdateItems_rename (low : String → String) (σ : String → String)
    (hσ : ∀ x, low (σ x) = low x) :
    ∀ (ps : List AIItemPayload) (cats : List Category),
      aiUpdateItems low
        (ps.map (fun p =>
          { p with categoryName := σ p.categoryName, content := σ p.content })) cats =
      aiUpdateItems low ps cats
  | [], _ => rfl
  | p :: rest, cats => by
    simp only [List.map_cons, aiUpdateItems, hσ]
    exact aiUpdateItems_rename low σ hσ rest _

/-- The targeted `delete` loop only reads the lowered forms of
`categoryName` and `content`. -/
theorem aiDeleteByContent_rename (low : String → String) (σ : String → String)
    (hσ : ∀ x, low (σ x) = low x) :
    ∀ (ps : List AIItemPayload) (cats : List Category),
      aiDeleteByContent low
        (ps.map (fun p =>
          { p with categoryName := σ p.categoryName, content := σ p.content })) cats =
      aiDeleteByContent low ps cats
  | [], _ => rfl
  | p :: rest, cats => by
    simp only [List.map_cons, aiDeleteByContent, hσ]
    exact aiDeleteByContent_rename low σ hσ rest _

/-- The whole action switch, parametric in the lowering, is invariant
under renaming the query names by any function that preserves lowered
forms, for the six action kinds that only match on those names. -/
theorem applyAIResult_rename_invariant (low : String → String) (σ : String → String)
    (hσ : ∀ x, low (σ x) = low x)
    (gen : Nat → String) (now : Nat) (r : AIResult)
    (cats : List Category) (activeId : Option String)
    (hact : r.action ∈ (["add", "update", "delete", "rename_category",
      "delete_category", "merge_categories"] : List String)) :
    applyAIResultWith low gen now (renameQueryNames σ r) cats activeId =
      applyAIResultWith low gen now r cats activeId := by
  simp only [List.mem_cons, List.not_mem_nil, or_false] at hact
  unfold applyAIResultWith renameQueryNames
  rcases hact with h | h | h | h | h | h <;> rw [h]
  · cases hi : r.items with
    | none => simp
    | some ps =>
      simp only [Option.map_some]
      have hren := aiAddItems_rename low gen σ hσ ps 0 cats
      simp [hren]
  · cases hi : r.items with
    | none => simp
    | some ps =>
      simp only [Option.map_some]
      have hren := aiUpdateItems_rename low σ hσ ps cats
      simp [hren]
  · cases hf : r.filter with
    | some f =>
      cases hn : f.categoryName with
      | none => simp [require, bind, Except.bind, hn]
      | some q => simp [require, bind, Except.bind, hn, hσ]
    | none =>
      cases hi : r.items with
      | none => simp
      | some ps =>
        simp only [Option.map_some, Option.map_none]
        have hren := aiDeleteByContent_rename low σ hσ ps cats
        simp [hren]
  · cases hd : r.category_details with
    | none => simp
    | some d =>
      cases hn : d.name with
      | none => simp [require, bind, Except.bind, hn]
      | some n =>
        cases hnn : d.newName with
        | none => simp [require, bind, Except.bind, hn, hnn]
        | some nn => simp [require, bind, Except.bind, hn, hnn, hσ]
  · cases hd : r.category_details with
    | none => simp
    | some d =>
      cases hn : d.name with
      | none => simp [require, bind, Except.bind, hn]
      | some n => simp [require, bind, Except.bind, hn, hσ]
  · cases hd : r.category_details with
    | none => simp
    | some d =>
      cases hsn : d.sourceName with
      | none => simp [require, bind, Except.bind, hsn]
      | some sn =>
        cases hdn : d.destinationName with
        | none => simp [require, bind, Except.bind, hsn, hdn]
        | some dn => simp [require, bind, Except.bind, hsn, hdn, hσ]

/-! ## Claim C8: name resolution is case-insensitive -/

/-- **C8**: for every lowering `low` — in particular the engine's Unicode
`String.prototype.toLowerCase`, which the action switch is parametric in —
every by-name target resolution matches exactly on equality of lowered
forms: a category `find?` (or an item content `findIdx?`) succeeds
precisely when a stored name has the same lowered form as the query, the
entire switch behaves identically under any renaming of the query names
that preserves lowered forms (for the six action kinds that only match on
them), and `create_category` performs its duplicate check on lowered
forms: it creates exactly when no stored name shares them. -/
theorem c8_name_matching_case_insensitive :
    ∀ low : String → String,
    (∀ (cats : List Category) (q : String) (c : Category),
      cats.find? (fun c => low c.name == low q) = some c →
      low c.name = low q ∧ c ∈ cats) ∧
    (∀ (cats : List Category) (q : String),
      (cats.find? (fun c => low c.name == low q)).isSome ↔
        ∃ c ∈ cats, low c.name = low q) ∧
    (∀ (items : List Item) (q : String),
      (items.findIdx? (fun i => low i.content == low q)).isSome ↔
        ∃ i ∈ items, low i.content = low q) ∧
    (∀ σ : String → String, (∀ x, low (σ x) = low x) →
      ∀ (gen : Nat → String) (now : Nat) (r : AIResult) (cats : List Category)
        (activeId : Option String),
        r.action ∈ (["add", "update", "delete", "rename_category",
          "delete_category", "merge_categories"] : List String) →
        applyAIResultWith low gen now (renameQueryNames σ r) cats activeId =
          applyAIResultWith low gen now r cats activeId) ∧
    (∀ (gen : Nat → String) (now : Nat) (resp n icon : String) (cats : List Category)
        (activeId : Option String),
      n ≠ "" →
      ((∃ c ∈ cats, low c.name = low n) →
        applyAIResultWith low gen now
          ⟨"create_category", resp, none, some ⟨some n, none, some icon, none, none⟩, none⟩
          cats activeId = .ok (cats, activeId)) ∧
      ((¬ ∃ c ∈ cats, low c.name = low n) →
        applyAIResultWith low gen now
          ⟨"create_category", resp, none, some ⟨some n, none, some icon, none, none⟩, none⟩
          cats activeId =
          .ok (cats ++ [⟨"cat-" ++ toString now, n, icon, []⟩],
            some ("cat-" ++ toString now)))) := by
  intro low
  refine ⟨?_, ?_, ?_, applyAIResult_rename_invariant low, ?_⟩
  · intro cats q c h
    exact ⟨by simpa [beq_iff_eq] using List.find?_some h, List.mem_of_find?_eq_some h⟩
  · intro cats q
    rw [List.find?_isSome]
    simp
  · intro items q
    rw [Option.isSome_iff_ne_none, Ne, List.findIdx?_eq_none_iff]
    simp
  · intro gen now resp n icon cats activeId hn
    have hnb : (n != "") = true := by simpa using hn
    constructor
    · intro hex
      have hany : (cats.any fun c => low c.name == low n) = true := by
        rw [List.any_eq_true]
        obtain ⟨c, hc, he⟩ := hex
        exact ⟨c, hc, by simpa using he⟩
      unfold applyAIResultWith
      simp [hnb, hany]
    · intro hnex
      have hany : (cats.any fun c => low c.name == low n) = false := by
        rw [← Bool.not_eq_true, List.any_eq_true]
        simpa using hnex
      unfold applyAIResultWith
      simp [hnb, hany]

/-- **C8** witness, exercising the accent case: with the lowering
instantiated by the executable `toLowerCase` (faithful to the engine on
this data), renaming the merge query names `À Faire` to `à FAIRE` leaves
the merge outcome on the accented store unchanged, and `create_category`
with the name `à faire` is refused because `À Faire` exists
case-insensitively. -/
theorem c8_name_matching_case_insensitive_witness :
    (applyAIResultWith toLowerCase (fun _ => "g") 9
      (renameQueryNames (fun x => if x == "À Faire" then "à FAIRE" else x)
        ⟨"merge_categories", "ok", none,
          some ⟨none, none, none, some "À Faire", some "Achats"⟩, none⟩)
      sampleCategoriesFr (some "cat-1") =
     applyAIResultWith toLowerCase (fun _ => "g") 9
      ⟨"merge_categories", "ok", none,
        some ⟨none, none, none, some "À Faire", some "Achats"⟩, none⟩
      sampleCategoriesFr (some "cat-1")) ∧
    (applyAIResultWith toLowerCase (fun _ => "g") 9
      ⟨"create_category", "ok", none,
        some ⟨some "à faire", none, some "Default", none, none⟩, none⟩
      sampleCategoriesFr (some "cat-1") =
      .ok (sampleCategoriesFr, some "cat-1")) :=
  ⟨(c8_name_matching_case_insensitive toLowerCase).2.2.2.1
      (fun x => if x == "À Faire" then "à FAIRE" else x)
      (by
        intro x
        by_cases h : x == "À Faire"
        · have hx : x = "À Faire" := by simpa using h
          subst hx
          simp only [if_pos h]
          decide
        · simp [h])
      (fun _ => "g") 9
      ⟨"merge_categories", "ok", none,
        some ⟨none, none, none, some "À Faire", some "Achats"⟩, none⟩
      sampleCategoriesFr (some "cat-1") (by decide),
    ((c8_name_matching_case_insensitive toLowerCase).2.2.2.2
      (fun _ => "g") 9 ("ok") ("à faire") ("Default")
      sampleCategoriesFr (some "cat-1") (by decide)).1
      (by
        refine ⟨⟨"cat-1", "À Faire", "ListTodo",
          [⟨"item-1", "Appeler le médecin", false, none, none⟩]⟩, ?_, by decide⟩
        decide)⟩

/-! ## Claim C6: the active category id always resolves -/

/-- The reselection effect establishes the invariant from any state: it
replaces a null, empty or dangling active id with the first category's id
(or null when the store is empty) and keeps a resolving id unchanged. -/
theorem activeOk_reselectActiveCategory (s : AppState) :
    ActiveOk (reselectActiveCategory s) := by
  unfold reselectActiveCategory ActiveOk
  cases ha : s.activeCategoryId with
  | none =>
    simp only [ha]
    cases hc : s.categories with
    | nil => left; simp [hc]
    | cons c t => right; exact ⟨c, by simp [hc], by simp [hc]⟩
  | some a =>
    simp only [ha]
    by_cases hbad : (a == "" || !(s.categories.any (fun c => c.id == a))) = true
    · rw [if_pos hbad]
      cases hc : s.categories with
      | nil => left; simp [hc]
      | cons c t => right; exact ⟨c, by simp [hc], by simp [hc]⟩
    · rw [if_neg hbad]
      have hb : (a == "" || !(s.categories.any (fun c => c.id == a))) = false :=
        eq_false_of_ne_true hbad
      rcases Bool.or_eq_false_iff.mp hb with ⟨h1, h2⟩
      have hany : s.categories.any (fun c => c.id == a) = true := by
        simpa using h2
      obtain ⟨c, hc, he⟩ := List.any_eq_true.mp hany
      right
      refine ⟨c, hc, ?_⟩
      rw [ha]
      have hca : c.id = a := by simpa using he
      rw [hca]

/-- **C6**: in every state reachable by stable steps — an event handler
(category and item operations, undo, the whole AI interpreter, the undo
expiry) followed by the reselection effect — from a state satisfying the
invariant, the active category id is null or the id of a present
category.  (A handler alone can break the invariant transiently — a merge
that removes the active category does — but its effect runs before the
next event, which the step relation reflects.) -/
theorem c6_active_id_always_resolves (s0 s : AppState)
    (h0 : ActiveOk s0) (hr : Reachable s0 s) : ActiveOk s := by
  induction hr with
  | refl => exact h0
  | tail _ hstep ih =>
    cases hstep <;> exact activeOk_reselectActiveCategory _

/-- **C6** witness: a merge that removes the active category `cat-1`,
followed by the reselection effect, lands in a state whose active id
resolves. -/
theorem c6_active_id_always_resolves_witness :
    ActiveOk (reselectActiveCategory (handleSendMessage (fun _ => "g") 9 ("fusionne") true
      (.ok ⟨"merge_categories", "ok", none,
        some ⟨none, none, none, some "Achats", some "Films"⟩, none⟩) sampleState)) :=
  c6_active_id_always_resolves sampleState _
    (Or.inr ⟨⟨"cat-1", "Achats", "ShoppingCart",
      [⟨"item-1", "Lait", false, none, some "bio"⟩, ⟨"item-2", "Pain", false, none, none⟩]⟩,
      by decide, rfl⟩)
    (Relation.ReflTransGen.single
      (StableStep.sendMessage (fun _ => "g") 9 ("fusionne") true
        (.ok ⟨"merge_categories", "ok", none,
          some ⟨none, none, none, some "Achats", some "Films"⟩, none⟩) sampleState))

/-! ## Identifier-uniqueness helpers (claim C5) -/

theorem joinItemIds_cons (c : Category) (t : List Category) :
    joinItemIds (c :: t) = c.items.map (fun i => i.id) ++ joinItemIds t := by
  simp [joinItemIds]

theorem joinItemIds_append (a b : List Category) :
    joinItemIds (a ++ b) = joinItemIds a ++ joinItemIds b := by
  simp [joinItemIds]

/-- `updateFirst` with an id-preserving function keeps the category ids. -/
theorem catIds_updateFirst (p : Category → Bool) (f : Category → Category)
    (hf : ∀ c, (f c).id = c.id) :
    ∀ l : List Category,
      (updateFirst p f l).map (fun c => c.id) = l.map (fun c => c.id)
  | [] => rfl
  | c :: t => by
    by_cases hp : p c
    · simp [updateFirst, hp, hf]
    · simp [updateFirst, hp, catIds_updateFirst p f hf t]

/-- Any item id after an `updateFirst` append is an old id or the new
one. -/
theorem mem_joinItemIds_updateFirst_append (p : Category → Bool) (x : Item) :
    ∀ (l : List Category) (y : String),
      y ∈ joinItemIds (updateFirst p
        (fun c => { c with items := c.items ++ [x] }) l) →
      y ∈ joinItemIds l ∨ y = x.id
  | [], _, hy => by simp [updateFirst, joinItemIds] at hy
  | c :: t, y, hy => by
    by_cases hp : p c
    · simp only [updateFirst, hp, if_true, if_pos, joinItemIds_cons,
        List.map_append, List.mem_append] at hy
      rcases hy with (hy | hy) | hy
      · exact Or.inl (by rw [joinItemIds_cons]; exact List.mem_append_left _ hy)
      · right; simpa using hy
      · exact Or.inl (by rw [joinItemIds_cons]; exact List.mem_append_right _ hy)
    · simp only [updateFirst, hp, if_false, Bool.false_eq_true,
        joinItemIds_cons, List.mem_append] at hy
      rcases hy with hy | hy
      · exact Or.inl (by rw [joinItemIds_cons]; exact List.mem_append_left _ hy)
      · rcases mem_joinItemIds_updateFirst_append p x t y hy with h | h
        · exact Or.inl (by rw [joinItemIds_cons]; exact List.mem_append_right _ h)
        · exact Or.inr h

/-- Appending one fresh item via `updateFirst` keeps the item ids
pairwise distinct. -/
theorem nodup_joinItemIds_updateFirst_append (p : Category → Bool) (x : Item) :
    ∀ l : List Category, (joinItemIds l).Nodup → x.id ∉ joinItemIds l →
      (joinItemIds (updateFirst p
        (fun c => { c with items := c.items ++ [x] }) l)).Nodup
  | [], _, _ => by simp [updateFirst, joinItemIds]
  | c :: t, hnd, hx => by
    rw [joinItemIds_cons] at hnd hx
    rw [List.nodup_append] at hnd
    obtain ⟨hnd1, hnd2, hdisj⟩ := hnd
    have hx1 : x.id ∉ c.items.map (fun i => i.id) := fun h => hx (List.mem_append_left _ h)
    have hx2 : x.id ∉ joinItemIds t := fun h => hx (List.mem_append_right _ h)
    by_cases hp : p c
    · simp only [updateFirst, hp, if_true, if_pos, joinItemIds_cons, List.map_append]
      rw [List.append_assoc, List.nodup_append]
      refine ⟨hnd1, ?_, ?_⟩
      · rw [List.nodup_append]
        refine ⟨List.nodup_singleton _, hnd2, ?_⟩
        intro y hy hmem
        have hyx : y = x.id := by simpa using hy
        exact hx2 (hyx ▸ hmem)
      · intro y hy hmem
        rcases (by simpa using hmem : y = x.id ∨ y ∈ joinItemIds t) with h | h
        · exact hx1 (h ▸ hy)
        · exact hdisj hy h
    · simp only [updateFirst, hp, if_false, Bool.false_eq_true, joinItemIds_cons]
      rw [List.nodup_append]
      refine ⟨hnd1, nodup_joinItemIds_updateFirst_append p x t hnd2 hx2, ?_⟩
      intro y hy hmem
      rcases mem_joinItemIds_updateFirst_append p x t y hmem with h | h
      · exact hdisj hy h
      · exact hx1 (h ▸ hy)

/-- Any item id after the by-id append of `handleAddItem` is an old id or
the new one. -/
theorem mem_joinItemIds_mapAppend (cid : String) (x : Item) :
    ∀ (l : List Category) (y : String),
      y ∈ joinItemIds (l.map
        (fun c => if c.id == cid then { c with items := c.items ++ [x] } else c)) →
      y ∈ joinItemIds l ∨ y = x.id
  | [], _, hy => by simp [joinItemIds] at hy
  | c :: t, y, hy => by
    rw [List.map_cons, joinItemIds_cons, List.mem_append] at hy
    rcases hy with hy | hy
    · by_cases hp : c.id == cid
      · simp only [hp, if_true, if_pos, List.map_append, List.mem_append] at hy
        rcases hy with hy | hy
        · exact Or.inl (by rw [joinItemIds_cons]; exact List.mem_append_left _ hy)
        · right; simpa using hy
      · simp only [hp, if_false, Bool.false_eq_true] at hy
        exact Or.inl (by rw [joinItemIds_cons]; exact List.mem_append_left _ hy)
    · rcases mem_joinItemIds_mapAppend cid x t y hy with h | h
      · exact Or.inl (by rw [joinItemIds_cons]; exact List.mem_append_right _ h)
      · exact Or.inr h

/-- The by-id append of `handleAddItem` keeps item ids pairwise distinct
when category ids are pairwise distinct and the new id is fresh. -/
theorem nodup_joinItemIds_mapAppend (cid : String) (x : Item) :
    ∀ l : List Category, (l.map (fun c => c.id)).Nodup →
      (joinItemIds l).Nodup → x.id ∉ joinItemIds l →
      (joinItemIds (l.map
        (fun c => if c.id == cid then { c with items := c.items ++ [x] } else c))).Nodup
  | [], _, _, _ => by simp [joinItemIds]
  | c :: t, hndc, hnd, hx => by
    rw [List.map_cons, List.nodup_cons] at hndc
    obtain ⟨hcid, hndc2⟩ := hndc
    rw [joinItemIds_cons] at hnd hx
    rw [List.nodup_append] at hnd
    obtain ⟨hnd1, hnd2, hdisj⟩ := hnd
    have hx1 : x.id ∉ c.items.map (fun i => i.id) := fun h => hx (List.mem_append_left _ h)
    have hx2 : x.id ∉ joinItemIds t := fun h => hx (List.mem_append_right _ h)
    rw [List.map_cons, joinItemIds_cons]
    by_cases hp : c.id == cid
    · have hpc : c.id = cid := by simpa using hp
      have hmapt : t.map (fun c => if c.id == cid then
          { c with items := c.items ++ [x] } else c) = t := by
        conv_rhs => rw [← List.map_id t]
        refine List.map_congr_left (fun c2 hc2 => ?_)
        have hne : (c2.id == cid) = false := by
          rw [beq_eq_false_iff_ne]
          intro he
          apply hcid
          rw [hpc, ← he]
          exact List.mem_map_of_mem (fun c => c.id) hc2
        simp [hne]
      rw [hmapt]
      simp only [hp, if_true, if_pos, List.map_append]
      rw [List.append_assoc, List.nodup_append]
      refine ⟨hnd1, ?_, ?_⟩
      · rw [List.nodup_append]
        refine ⟨List.nodup_singleton _, hnd2, ?_⟩
        intro y hy hmem
        have hyx : y = x.id := by simpa using hy
        exact hx2 (hyx ▸ hmem)
      · intro y hy hmem
        rcases (by simpa using hmem : y = x.id ∨ y ∈ joinItemIds t) with h | h
        · exact hx1 (h ▸ hy)
        · exact hdisj hy h
    · simp only [hp, if_false, Bool.false_eq_true]
      rw [List.nodup_append]
      refine ⟨hnd1, nodup_joinItemIds_mapAppend cid x t hndc2 hnd2 hx2, ?_⟩
      intro y hy hmem
      rcases mem_joinItemIds_mapAppend cid x t y hmem with h | h
      · exact hdisj hy h
      · exact hx1 (h ▸ hy)

/-- The `add` loop of the AI interpreter keeps item ids pairwise distinct
when the generated ids are fresh and pairwise distinct; it never touches
category ids; every id afterwards is an old one or a generated one. -/
theorem aiAddItems_uniqueIds (low : String → String) (gen : Nat → String) :
    ∀ (ps : List AIItemPayload) (idx : Nat) (cats : List Category),
      (joinItemIds cats).Nodup →
      (∀ k, idx ≤ k → k < idx + ps.length → gen k ∉ joinItemIds cats) →
      (∀ k1, idx ≤ k1 → k1 < idx + ps.length → ∀ k2, idx ≤ k2 → k2 < idx + ps.length →
        k1 ≠ k2 → gen k1 ≠ gen k2) →
      (joinItemIds (aiAddItems low gen idx ps cats)).Nodup ∧
      (∀ y ∈ joinItemIds (aiAddItems low gen idx ps cats),
        y ∈ joinItemIds cats ∨ ∃ k, idx ≤ k ∧ k < idx + ps.length ∧ y = gen k) ∧
      (aiAddItems low gen idx ps cats).map (fun c => c.id) = cats.map (fun c => c.id)
  | [], idx, cats, hnd, _, _ => ⟨hnd, fun y hy => Or.inl hy, rfl⟩
  | p :: rest, idx, cats, hnd, hfresh, hdist => by
    have hgen0 : gen idx ∉ joinItemIds cats := hfresh idx le_rfl (by simp)
    have hnd1 := nodup_joinItemIds_updateFirst_append
      (fun c => low c.name == low p.categoryName)
      ⟨gen idx, p.content, false, p.dueDate, p.notes⟩ cats hnd hgen0
    have hmem1 := fun y hy => mem_joinItemIds_updateFirst_append
      (fun c => low c.name == low p.categoryName)
      ⟨gen idx, p.content, false, p.dueDate, p.notes⟩ cats y hy
    have hfresh1 : ∀ k, idx + 1 ≤ k → k < (idx + 1) + rest.length →
        gen k ∉ joinItemIds (updateFirst
          (fun c => low c.name == low p.categoryName)
          (fun c => { c with items := c.items ++
            [⟨gen idx, p.content, false, p.dueDate, p.notes⟩] }) cats) := by
      intro k h1 h2 hk
      rcases hmem1 _ hk with h | h
      · exact hfresh k (by omega) (by simp; omega) h
      · exact hdist k (by omega) (by simp; omega) idx le_rfl (by simp) (by omega) h
    have hdist1 : ∀ k1, idx + 1 ≤ k1 → k1 < (idx + 1) + rest.length →
        ∀ k2, idx + 1 ≤ k2 → k2 < (idx + 1) + rest.length → k1 ≠ k2 →
        gen k1 ≠ gen k2 := by
      intro k1 ha1 ha2 k2 hb1 hb2 hne
      exact hdist k1 (by omega) (by simp; omega) k2 (by omega) (by simp; omega) hne
    obtain ⟨ha, hb, hc⟩ :=
      aiAddItems_uniqueIds low gen rest (idx + 1) _ hnd1 hfresh1 hdist1
    refine ⟨ha, ?_, ?_⟩
    · intro y hy
      rcases hb y hy with h | ⟨k, hk1, hk2, hk3⟩
      · rcases hmem1 y h with h2 | h2
        · exact Or.inl h2
        · exact Or.inr ⟨idx, le_rfl, by simp, h2⟩
      · exact Or.inr ⟨k, by omega, by simp; omega, hk3⟩
    · exact hc.trans (catIds_updateFirst
        (fun c => low c.name == low p.categoryName)
        (fun c => { c with items := c.items ++
          [⟨gen idx, p.content, false, p.dueDate, p.notes⟩] })
        (fun c => rfl) cats)

/-- One growing operation preserves the uniqueness invariant, given its
generated ids are fresh. -/
theorem uniqueIds_applyGrowOp (op : GrowOp) (s : AppState)
    (h : UniqueIds s) (hf : FreshFor op s) : UniqueIds (applyGrowOp op s) := by
  obtain ⟨hndc, hndi⟩ := h
  cases op with
  | uiAddCategory now name icon =>
    refine ⟨?_, ?_⟩
    · show ((s.categories ++
        [(⟨"cat-" ++ toString now, name, icon, []⟩ : Category)]).map (fun c => c.id)).Nodup
      rw [List.map_append, List.nodup_append]
      refine ⟨hndc, by simp, ?_⟩
      intro y hy hmem
      have : y = "cat-" ++ toString now := by simpa using hmem
      obtain ⟨c, hc, he⟩ := List.mem_map.mp hy
      exact hf c hc (by rw [he, this])
    · show (joinItemIds (s.categories ++
        [(⟨"cat-" ++ toString now, name, icon, []⟩ : Category)])).Nodup
      rw [joinItemIds_append]
      simpa [joinItemIds] using hndi
  | uiAddItem now categoryId content dueDate =>
    refine ⟨?_, ?_⟩
    · show ((s.categories.map (fun c => if c.id == categoryId then
        { c with items := c.items ++
          [⟨"item-" ++ toString now, content, false, dueDate, none⟩] } else c)).map
        (fun c => c.id)).Nodup
      rw [List.map_map]
      have : s.categories.map ((fun c => c.id) ∘ (fun c =>
          if c.id == categoryId then { c with items := c.items ++
            [⟨"item-" ++ toString now, content, false, dueDate, none⟩] } else c)) =
          s.categories.map (fun c => c.id) := by
        refine List.map_congr_left (fun c _ => ?_)
        by_cases hp : c.id = categoryId <;> simp [hp]
      rw [this]
      exact hndc
    · exact nodup_joinItemIds_mapAppend categoryId
        ⟨"item-" ++ toString now, content, false, dueDate, none⟩ s.categories hndc hndi hf
  | aiAdd gen resp ps =>
    have happ : applyGrowOp (.aiAdd gen resp ps) s =
        { s with categories := aiAddItems toLowerCase gen 0 ps s.categories } := by
      unfold applyGrowOp applyAIResult applyAIResultWith
      simp
    rw [happ]
    obtain ⟨hf1, hf2⟩ := hf
    obtain ⟨ha, _, hc⟩ := aiAddItems_uniqueIds toLowerCase gen ps 0 s.categories hndi
      (fun k _ hk => hf1 k (by omega)) (fun k1 _ ha2 k2 _ hb2 hne =>
        hf2 k1 (by omega) k2 (by omega) hne)
    exact ⟨by rw [hc]; exact hndc, ha⟩
  | aiCreateCategory now resp d =>
    cases hn : d.name with
    | none =>
      have : applyGrowOp (.aiCreateCategory now resp d) s = s := by
        unfold applyGrowOp applyAIResult applyAIResultWith
        simp [hn]
      rw [this]
      exact ⟨hndc, hndi⟩
    | some n =>
      by_cases hg : (n != "" &&
          !(s.categories.any (fun c => toLowerCase c.name == toLowerCase n))) = true
      · have : applyGrowOp (.aiCreateCategory now resp d) s =
            { s with
              categories := s.categories ++
                [⟨"cat-" ++ toString now, n, d.icon.getD "Default", []⟩]
              activeCategoryId := some ("cat-" ++ toString now) } := by
          unfold applyGrowOp applyAIResult applyAIResultWith
          simp [hn, hg]
        rw [this]
        refine ⟨?_, ?_⟩
        · show ((s.categories ++
            [(⟨"cat-" ++ toString now, n, d.icon.getD "Default", []⟩ : Category)]).map
              (fun c => c.id)).Nodup
          rw [List.map_append, List.nodup_append]
          refine ⟨hndc, by simp, ?_⟩
          intro y hy hmem
          have : y = "cat-" ++ toString now := by simpa using hmem
          obtain ⟨c, hc, he⟩ := List.mem_map.mp hy
          exact hf c hc (by rw [he, this])
        · show (joinItemIds (s.categories ++
            [(⟨"cat-" ++ toString now, n, d.icon.getD "Default", []⟩ : Category)])).Nodup
          rw [joinItemIds_append]
          simpa [joinItemIds] using hndi
      · have : applyGrowOp (.aiCreateCategory now resp d) s = s := by
          unfold applyGrowOp applyAIResult applyAIResultWith
          simp only [hn]
          simp [hg]
        rw [this]
        exact ⟨hndc, hndi⟩

/-- Sequential closure of the per-operation preservation. -/
theorem uniqueIds_applyGrowOps :
    ∀ (ops : List GrowOp) (s : AppState),
      UniqueIds s → FreshAlong ops s → UniqueIds (applyGrowOps ops s)
  | [], _, h, _ => h
  | op :: rest, s, h, hfa =>
    uniqueIds_applyGrowOps rest (applyGrowOp op s)
      (uniqueIds_applyGrowOp op s h hfa.1) hfa.2

/-! ## Claim C5: identifier uniqueness -/

/-- **C5** (amended): after every sequence of identifier-creating
operations (`handleAddCategory`, `handleAddItem`, the AI `add` and
`create_category` actions) starting from a store with pairwise-distinct
ids, ids stay pairwise distinct — provided each generated id
(`Date.now()`/`Math.random()`-derived, an ambient input of the code) is
fresh for the store it lands in, and the ids generated inside one AI
`add` are pairwise distinct.  Without that proviso the claim is false:
the code never checks a generated id, so two adds in the same millisecond
collide (see the counterexample). -/
theorem c5_unique_ids_amended :
    ∀ (ops : List GrowOp) (s : AppState),
      UniqueIds s → FreshAlong ops s → UniqueIds (applyGrowOps ops s) :=
  uniqueIds_applyGrowOps

/-- **C5** counterexample: from the empty store (trivially unique), two
`handleAddCategory` calls with the same `Date.now()` reading produce two
categories both named by id `cat-7` — the claim as stated, with no
freshness proviso, fails. -/
theorem c5_same_millisecond_counterexample :
    UniqueIds (⟨[], none, [], none, none⟩ : AppState) ∧
    ¬ UniqueIds (applyGrowOps
      [.uiAddCategory 7 ("A") ("ListTodo"), .uiAddCategory 7 ("B") ("ListTodo")]
      ⟨[], none, [], none, none⟩) := by
  constructor
  · decide
  · decide

/-- **C5** witness: a four-operation sequence (UI category add, UI item
add, AI `add`, AI `create_category`) with fresh generated ids keeps all
ids pairwise distinct. -/
theorem c5_unique_ids_amended_witness :
    UniqueIds (applyGrowOps
      [.uiAddCategory 7 ("A") ("ListTodo"),
       .uiAddItem 8 ("cat-7") ("Oeufs") none,
       .aiAdd (fun k => "item-9-" ++ toString k) ("ok")
         [⟨"Sucre", "A", none, none, none, none⟩],
       .aiCreateCategory 10 ("ok") ⟨some ("B"), none, none, none, none⟩]
      sampleState) :=
  c5_unique_ids_amended
    [.uiAddCategory 7 ("A") ("ListTodo"),
     .uiAddItem 8 ("cat-7") ("Oeufs") none,
     .aiAdd (fun k => "item-9-" ++ toString k) ("ok")
       [⟨"Sucre", "A", none, none, none, none⟩],
     .aiCreateCategory 10 ("ok") ⟨some ("B"), none, none, none, none⟩]
    sampleState (by decide) (by decide)

end TodoApp
